import Mathlib

/-!
Verification of the CFP committee-ranking simulation
(`SOSPreseasonBiasFull134StandardCommittee100Runs.py` and
`SOSPreseasonBiasFull134HarsherCommittee100Runs.py`).

The Python source is shallowly embedded: team dictionaries become a `Team`
structure (the `'name'` string `"Team #i"` is represented by its number `i`),
Python ints become `Int`, Python floats (used only for probabilities and for
averaged statistics) become `ℚ`, and the process-wide random generator is
modelled by an explicit stream `Rand` supplying each week's shuffled index
order and each matchup's uniform draw.  Runtime errors (the `IndexError`
raised by `indices[i+1]` when `num_teams` is odd) are modelled by `Option`.
-/

set_option maxHeartbeats 1000000
set_option maxRecDepth 100000

namespace CFP

/-- One team dictionary from `generate_teams`: `'name'` (modelled by the team
number), `'true_rank'`, `'cfp_rank'`, `'season_points'`. -/
structure Team where
  id : Nat
  true_rank : Int
  cfp_rank : Int
  season_points : Int
deriving DecidableEq, Repr

/-- `generate_teams` of the standard-committee file: team `i` (for `i = 1..N`)
has `true_rank = i` and inverted preseason `cfp_rank = num_teams - i + 1`,
with zero season points. -/
def generate_teams (num_teams : Nat) : List Team :=
  (List.range num_teams).map fun i =>
    { id := i + 1
      true_rank := (i : Int) + 1
      cfp_rank := (num_teams : Int) - ((i : Int) + 1) + 1
      season_points := 0 }

/-- The `base_prob` selection of `probability_of_win`, binned on `abs_diff`. -/
def win_base_prob (abs_diff : Int) : ℚ :=
  if abs_diff ≤ 5 then 0.50
  else if abs_diff ≤ 10 then 0.65
  else if abs_diff ≤ 15 then 0.75
  else if abs_diff ≤ 25 then 0.85
  else if abs_diff ≤ 50 then 0.95
  else if abs_diff ≤ 100 then 0.98
  else 0.99

/-- `probability_of_win(team_a_true, team_b_true)`: with
`diff = team_b_true - team_a_true`, the binned base probability is returned
directly when `diff > 0` (A better), else complemented. -/
def probability_of_win (team_a_true team_b_true : Int) : ℚ :=
  if team_b_true - team_a_true > 0 then win_base_prob |team_b_true - team_a_true|
  else 1 - win_base_prob |team_b_true - team_a_true|

/-- `determine_cfp_points(team_cfp_rank, opponent_cfp_rank, did_win)` of both
source files (the standard 5/4/3/3/2/1/0 table); the Python local
`diff = opponent_cfp_rank - team_cfp_rank` is inlined. -/
def determine_cfp_points (team_cfp_rank opponent_cfp_rank : Int) (did_win : Bool) : Int :=
  if did_win then
    if opponent_cfp_rank < team_cfp_rank ∨ opponent_cfp_rank - team_cfp_rank ≤ 7 then 5
    else if opponent_cfp_rank - team_cfp_rank ≤ 24 then 4
    else 3
  else
    if opponent_cfp_rank < team_cfp_rank then 3
    else
      if opponent_cfp_rank - team_cfp_rank ≤ 7 then 2
      else if opponent_cfp_rank - team_cfp_rank ≤ 24 then 1
      else 0

/-- Modelled from the spec: the harsh scoring rule of the third policy variant
(inverted preseason + harsh scoring).  Its implementation file is not among
the sources under verification — the `determine_cfp_points` found in the
`HarsherCommittee` file is the standard 5/4/3/3/2/1/0 table — so this
definition follows the spec's words: win vs. stronger opponent → 9; win vs.
opponent ≤ 7 below → 8; 8–24 below → 7; ≥ 25 below → 6; loss to stronger
opponent → 4; loss to opponent 1–5 below → 2; 6–24 below → 1; ≥ 25 below → 0,
where the rank difference is `opponent_rank - own_rank`. -/
def determine_cfp_points_harsh (team_cfp_rank opponent_cfp_rank : Int) (did_win : Bool) : Int :=
  if did_win then
    if opponent_cfp_rank < team_cfp_rank then 9
    else if opponent_cfp_rank - team_cfp_rank ≤ 7 then 8
    else if opponent_cfp_rank - team_cfp_rank ≤ 24 then 7
    else 6
  else
    if opponent_cfp_rank < team_cfp_rank then 4
    else if opponent_cfp_rank - team_cfp_rank ≤ 5 then 2
    else if opponent_cfp_rank - team_cfp_rank ≤ 24 then 1
    else 0

/-- C3: the standard scoring rule awards 5/4/3 to wins and 3/2/1/0 to losses
according to the stated rank-difference bins, for every pair of distinct
committee ranks in `1..N`. -/
theorem determine_cfp_points_standard_bins (N own opp : Int)
    (hown : 1 ≤ own) (hownN : own ≤ N) (hopp : 1 ≤ opp) (hoppN : opp ≤ N)
    (hne : own ≠ opp) :
    (opp < own → determine_cfp_points own opp true = 5) ∧
    (own < opp → opp - own ≤ 7 → determine_cfp_points own opp true = 5) ∧
    (8 ≤ opp - own → opp - own ≤ 24 → determine_cfp_points own opp true = 4) ∧
    (25 ≤ opp - own → determine_cfp_points own opp true = 3) ∧
    (opp < own → determine_cfp_points own opp false = 3) ∧
    (1 ≤ opp - own → opp - own ≤ 7 → determine_cfp_points own opp false = 2) ∧
    (8 ≤ opp - own → opp - own ≤ 24 → determine_cfp_points own opp false = 1) ∧
    (25 ≤ opp - own → determine_cfp_points own opp false = 0) := by
  refine ⟨?_, ?_, ?_, ?_, ?_, ?_, ?_, ?_⟩ <;> intros <;>
    simp only [determine_cfp_points, if_true, Bool.false_eq_true, if_false] <;>
    split_ifs <;> omega

/-- Witness for C3 at `N = 134`, `own = 10`, `opp = 3`. -/
theorem determine_cfp_points_standard_bins_witness :
    determine_cfp_points 10 3 true = 5 :=
  (determine_cfp_points_standard_bins 134 10 3 (by norm_num) (by norm_num)
    (by norm_num) (by norm_num) (by norm_num)).1 (by norm_num)

/-- C1: the harsh scoring rule (modelled from the spec, see
`determine_cfp_points_harsh`) awards 9/8/7/6 to wins and 4/2/1/0 to losses
according to the stated bins — note the loss boundary `diff ≤ 5` differing
from the win boundary `diff ≤ 7` — for every pair of distinct ranks in
`1..N`. -/
theorem determine_cfp_points_harsh_bins (N own opp : Int)
    (hown : 1 ≤ own) (hownN : own ≤ N) (hopp : 1 ≤ opp) (hoppN : opp ≤ N)
    (hne : own ≠ opp) :
    (opp < own → determine_cfp_points_harsh own opp true = 9) ∧
    (1 ≤ opp - own → opp - own ≤ 7 → determine_cfp_points_harsh own opp true = 8) ∧
    (8 ≤ opp - own → opp - own ≤ 24 → determine_cfp_points_harsh own opp true = 7) ∧
    (25 ≤ opp - own → determine_cfp_points_harsh own opp true = 6) ∧
    (opp < own → determine_cfp_points_harsh own opp false = 4) ∧
    (1 ≤ opp - own → opp - own ≤ 5 → determine_cfp_points_harsh own opp false = 2) ∧
    (6 ≤ opp - own → opp - own ≤ 24 → determine_cfp_points_harsh own opp false = 1) ∧
    (25 ≤ opp - own → determine_cfp_points_harsh own opp false = 0) := by
  refine ⟨?_, ?_, ?_, ?_, ?_, ?_, ?_, ?_⟩ <;> intros <;>
    simp only [determine_cfp_points_harsh, if_true, Bool.false_eq_true, if_false] <;>
    split_ifs <;> omega

/-- Witness for C1 at `N = 134`, `own = 10`, `opp = 3`. -/
theorem determine_cfp_points_harsh_bins_witness :
    determine_cfp_points_harsh 10 3 true = 9 :=
  (determine_cfp_points_harsh_bins 134 10 3 (by norm_num) (by norm_num)
    (by norm_num) (by norm_num) (by norm_num)).1 (by norm_num)

/-- C6: swapping the two sides of `probability_of_win` always yields
complementary values summing to exactly 1. -/
theorem probability_of_win_complementary (a b : Int) :
    probability_of_win a b + probability_of_win b a = 1 := by
  unfold probability_of_win
  have habs : |a - b| = |b - a| := abs_sub_comm a b
  rcases lt_trichotomy (b - a) 0 with h | h | h
  · rw [if_neg (by omega), if_pos (by omega), habs]
    ring
  · have ha : a - b = 0 := by omega
    rw [h, ha]
    norm_num [win_base_prob]
  · rw [if_pos (by omega), if_neg (by omega), habs]
    ring

/-- The random stream consumed by one season: `shuffle w` is the result of
`random.shuffle(list(range(num_teams)))` in week `w`, and `win w j` is the
value of the comparison `random.random() < p_a_wins` for week `w`'s `j`-th
matchup (every execution of the Python code determines such a Boolean stream,
so properties quantified over all streams cover all executions). -/
structure Rand where
  shuffle : Nat → List Nat
  win : Nat → Nat → Bool

/-- `[(indices[i], indices[i+1]) for i in range(0, num_teams, 2)]`; the
`IndexError` raised when `num_teams` is odd (so that `indices[i+1]` reads one
past the end) is modelled by `none`. -/
def pairup (indices : List Nat) (num_teams : Nat) : Option (List (Nat × Nat)) :=
  ((List.range num_teams).filter fun i => i % 2 == 0).mapM fun i =>
    match indices[i]?, indices[i + 1]? with
    | some a, some b => some (a, b)
    | _, _ => none

/-- Consecutive pairing of a list, used to characterise `pairup` on an
even-length list. -/
def chunkPairs : List Nat → List (Nat × Nat)
  | a :: b :: rest => (a, b) :: chunkPairs rest
  | _ => []

/-- All endpoints of a matchup list, in order. -/
def endpoints : List (Nat × Nat) → List Nat
  | [] => []
  | m :: rest => m.1 :: m.2 :: endpoints rest

/-- One matchup of the weekly loop: read both teams, take the outcome
`a_wins` (in Python, `random.random() < probability_of_win(...)`), award both
sides points from their last-week committee ranks, and accumulate the points.
`none` models the `IndexError` of an out-of-range team index. -/
def playMatch (teams : List Team) (last_week_map : Nat → Int) (a_wins : Bool)
    (m : Nat × Nat) : Option (List Team) :=
  match teams[m.1]?, teams[m.2]? with
  | some team_a, some team_b =>
    let pts_a := determine_cfp_points (last_week_map team_a.id) (last_week_map team_b.id) a_wins
    let pts_b := determine_cfp_points (last_week_map team_b.id) (last_week_map team_a.id) (!a_wins)
    some (((teams.modify
        (fun t => { t with season_points := t.season_points + pts_a }) m.1).modify
        (fun t => { t with season_points := t.season_points + pts_b }) m.2))
  | _, _ => none

/-- The matchup loop of one week, consuming one outcome per matchup in
order. -/
def playWeek (teams : List Team) (last_week_map : Nat → Int) (r : Rand) (w : Nat)
    (matchups : List (Nat × Nat)) : Option (List Team) :=
  matchups.enum.foldlM (fun acc jm => playMatch acc last_week_map (r.win w jm.1) jm.2) teams

/-- The ordering of `sorted(teams, key=lambda t: t['season_points'], reverse=True)`:
descending season points.  Python's `list.sort`/`sorted` are stable sorts and
any two stable sorts agree, so they are modelled by `List.insertionSort`. -/
def ptsDescRel (a b : Team) : Prop := b.season_points ≤ a.season_points

instance : DecidableRel ptsDescRel := fun a b => inferInstanceAs (Decidable (_ ≤ _))

instance : IsTotal Team ptsDescRel := ⟨fun a b => le_total b.season_points a.season_points⟩

instance : IsTrans Team ptsDescRel := ⟨fun _ _ _ h h' => le_trans h' h⟩

/-- The preseason ordering `sorted(teams, key=lambda t: t['cfp_rank'])`. -/
def cfpLeRel (a b : Team) : Prop := a.cfp_rank ≤ b.cfp_rank

instance : DecidableRel cfpLeRel := fun a b => inferInstanceAs (Decidable (_ ≤ _))

instance : IsTotal Team cfpLeRel := ⟨fun a b => le_total a.cfp_rank b.cfp_rank⟩

instance : IsTrans Team cfpLeRel := ⟨fun _ _ _ h h' => le_trans h h'⟩

/-- The ordering `sort(key=lambda t: name_to_idx[t['name']])` of `break_ties`. -/
def idxLeRel (key : Nat → Nat) (a b : Team) : Prop := key a.id ≤ key b.id

instance (key : Nat → Nat) : DecidableRel (idxLeRel key) :=
  fun a b => inferInstanceAs (Decidable (_ ≤ _))

instance (key : Nat → Nat) : IsTotal Team (idxLeRel key) :=
  ⟨fun a b => le_total (key a.id) (key b.id)⟩

instance (key : Nat → Nat) : IsTrans Team (idxLeRel key) :=
  ⟨fun _ _ _ h h' => le_trans h h'⟩

/-- `break_ties(teams_sorted, teams_last_week)`: stable-sort by the team's
index in last week's order, then stable-sort by season points descending. -/
def break_ties (teams_sorted teams_last_week : List Team) : List Team :=
  let name_to_idx : Nat → Nat := fun nm => teams_last_week.findIdx fun t => t.id == nm
  (teams_sorted.insertionSort (idxLeRel name_to_idx)).insertionSort ptsDescRel

/-- `for rank_pos, tdict in enumerate(new_cfp_order): tdict['cfp_rank'] = rank_pos + 1`. -/
def assignRanks (l : List Team) : List Team :=
  l.enum.map fun p => { p.2 with cfp_rank := (p.1 : Int) + 1 }

/-- In Python the snapshot order and the master `teams` list alias the same
dictionaries, so writing `cfp_rank` through `new_cfp_order` also updates the
master list; with immutable values this is the per-id propagation below. -/
def syncRanks (teams new_cfp_order : List Team) : List Team :=
  teams.map fun t =>
    match new_cfp_order.find? (fun u => u.id == t.id) with
    | some u => { t with cfp_rank := u.cfp_rank }
    | none => t

/-- One iteration of the weekly loop of `simulate_single_season`: shuffle and
pair the team indices, record the last-week rank map from the current order,
play all matchups, re-sort by points, break ties by last week's order, and
assign the new committee ranks. -/
def step (num_teams : Nat) (r : Rand) (w : Nat) (teams current_cfp_order : List Team) :
    Option (List Team × List Team) :=
  match pairup (r.shuffle w) num_teams with
  | none => none
  | some matchups =>
    let last_week_map : Nat → Int :=
      fun nm => (current_cfp_order.findIdx fun t => t.id == nm) + 1
    match playWeek teams last_week_map r w matchups with
    | none => none
    | some teams2 =>
      let new_cfp_order :=
        assignRanks (break_ties (teams2.insertionSort ptsDescRel) current_cfp_order)
      some (syncRanks teams2 new_cfp_order, new_cfp_order)

/-- The weekly loop `for w in range(1, num_weeks + 1)`, returning the
snapshots of weeks `w, w+1, ...` (`rem` of them). -/
def simWeeks (num_teams : Nat) (r : Rand) :
    Nat → Nat → List Team → List Team → Option (List (List Team))
  | 0, _, _, _ => some []
  | rem + 1, w, teams, cur =>
    match step num_teams r w teams cur with
    | none => none
    | some (teams2, new_cfp_order) =>
      match simWeeks num_teams r rem (w + 1) teams2 new_cfp_order with
      | none => none
      | some rest => some (new_cfp_order :: rest)

/-- `simulate_single_season(num_teams, num_weeks, seed)` of the
standard-committee file: generate the teams with the inverted preseason
ranking, sort them into the preseason committee order, then run the weekly
loop; returns the `num_weeks + 1` weekly snapshots (deep copies become list
values). -/
def simulate_single_season (num_teams num_weeks : Nat) (r : Rand) :
    Option (List (List Team)) :=
  let teams := generate_teams num_teams
  let current_cfp_order := teams.insertionSort cfpLeRel
  match simWeeks num_teams r num_weeks 1 teams current_cfp_order with
  | none => none
  | some rest => some (current_cfp_order :: rest)

/-- The committee rank a snapshot records for team `nm` (the dict lookup
`{team['name']: team['cfp_rank']}[nm]`; every id is present in a snapshot, a
missing id would be a Python `KeyError`). -/
def rankOf (snapshot : List Team) (nm : Nat) : Int :=
  match snapshot.find? (fun t => t.id == nm) with
  | some t => t.cfp_rank
  | none => 0

/-- The season points a snapshot records for team `nm`. -/
def pointsOf (snapshot : List Team) (nm : Nat) : Int :=
  match snapshot.find? (fun t => t.id == nm) with
  | some t => t.season_points
  | none => 0

/-- A concrete random stream: the identity shuffle on `n` indices, with the
first team of every matchup winning. -/
def orderedRand (n : Nat) : Rand := ⟨fun _ => List.range n, fun _ _ => true⟩

/-- An Option-valued `mapM` fails as soon as one element fails. -/
theorem mapM_option_eq_none {α β : Type} {f : α → Option β} {l : List α} {x : α}
    (hx : x ∈ l) (hf : f x = none) : l.mapM f = none := by
  induction l with
  | nil => cases hx
  | cons a l ih =>
    rcases List.mem_cons.1 hx with rfl | hx'
    · rw [List.mapM_cons, hf]; rfl
    · rw [List.mapM_cons]
      cases hfa : f a with
      | none => rfl
      | some b => rw [ih hx']; rfl

/-- With an odd number of teams, the pairing comprehension reads one index
past the end of the shuffled list and fails. -/
theorem pairup_none_of_odd {indices : List Nat} {n : Nat}
    (hlen : indices.length = n) (hodd : n % 2 = 1) :
    pairup indices n = none := by
  have hn : 1 ≤ n := by omega
  have hmem : n - 1 ∈ (List.range n).filter fun i => i % 2 == 0 := by
    rw [List.mem_filter, List.mem_range]
    constructor
    · omega
    · simp only [beq_iff_eq]
      omega
  apply mapM_option_eq_none hmem
  have h1 : n - 1 + 1 = n := by omega
  have h2 : indices[n - 1 + 1]? = none := by
    rw [h1, List.getElem?_eq_none]
    omega
  rw [h2]
  cases indices[n - 1]? <;> rfl

/-- C2 counterexample: `num_weeks = 0` is a malformed (non-positive)
configuration, yet `simulate_single_season` raises nothing at all — it
returns the preseason snapshot normally, so no configuration error is
reported before simulation begins. -/
theorem simulate_no_error_on_zero_weeks :
    (simulate_single_season 4 0 (orderedRand 4)).isSome = true := by decide

/-- C2 amended: the code performs no configuration validation.  A
non-positive `num_weeks` produces a normal return (just the preseason
snapshot), and an odd `num_teams` is not rejected up front: the failure is
the week-1 pairing's out-of-range index read, raised mid-run after the teams
have been generated and ranked. -/
theorem simulate_no_config_check (N M : Nat) (r s : Rand)
    (hodd : N % 2 = 1) (hM : 1 ≤ M) (hsh : (s.shuffle 1).length = N) :
    (simulate_single_season N 0 r).isSome = true ∧
    simulate_single_season N M s = none := by
  constructor
  · simp [simulate_single_season, simWeeks]
  · obtain ⟨m, rfl⟩ : ∃ m, M = m + 1 := ⟨M - 1, by omega⟩
    have hp : pairup (s.shuffle 1) N = none := pairup_none_of_odd hsh hodd
    simp [simulate_single_season, simWeeks, step, hp]

/-- Witness for the amended C2 at `N = 3`, `M = 1`. -/
theorem simulate_no_config_check_witness :
    (simulate_single_season 3 0 (orderedRand 3)).isSome = true ∧
    simulate_single_season 3 1 (orderedRand 3) = none :=
  simulate_no_config_check 3 1 (orderedRand 3) (orderedRand 3) (by decide) (by decide)
    (by decide)

/-- The six per-week metric series returned by `compute_weekly_stats` and
`run_multiple_simulations` (Python floats become `ℚ`; the integer-valued
maxima are carried in the same series, as in Python they share lists with
float averages). -/
structure Stats where
  avg_diff : List ℚ
  max_diff : List ℚ
  biggest_rise : List ℚ
  biggest_fall : List ℚ
  avg_diff25 : List ℚ
  max_diff25 : List ℚ

/-- `[abs(team['cfp_rank'] - team['true_rank']) for team in snapshot]`. -/
def weekDiffs (snapshot : List Team) : List ℚ :=
  snapshot.map fun t => ((|t.cfp_rank - t.true_rank| : Int) : ℚ)

/-- Python's `sum` on a list of numbers. -/
def sumQ (l : List ℚ) : ℚ := l.foldl (· + ·) 0

/-- Python's `max` on the (always non-empty, non-negative) diff lists. -/
def pyMax (l : List ℚ) : ℚ := l.foldl max 0

/-- The `best_improvement` fold of `compute_weekly_stats`: the largest
`old_rank - new_rank` over the teams of week `w`'s snapshot, floored at 0. -/
def biggestRise (map_prev map_this : List Team) : ℚ :=
  map_this.foldl
    (fun best t => max best ((rankOf map_prev t.id - rankOf map_this t.id : Int) : ℚ)) 0

/-- The `worst_drop` fold of `compute_weekly_stats`. -/
def biggestFall (map_prev map_this : List Team) : ℚ :=
  map_this.foldl
    (fun worst t => max worst ((rankOf map_this t.id - rankOf map_prev t.id : Int) : ℚ)) 0

/-- `compute_weekly_stats(weekly_rankings)`: the six series, with
`biggest_rise[0] = biggest_fall[0] = 0` and the top-25 statistics restricted
to `snapshot[:25]`. -/
def compute_weekly_stats (weekly_rankings : List (List Team)) : Stats where
  avg_diff := weekly_rankings.map fun s => sumQ (weekDiffs s) / ((weekDiffs s).length : ℚ)
  max_diff := weekly_rankings.map fun s => pyMax (weekDiffs s)
  biggest_rise := (List.range weekly_rankings.length).map fun w =>
    if w = 0 then 0
    else biggestRise (weekly_rankings.getD (w - 1) []) (weekly_rankings.getD w [])
  biggest_fall := (List.range weekly_rankings.length).map fun w =>
    if w = 0 then 0
    else biggestFall (weekly_rankings.getD (w - 1) []) (weekly_rankings.getD w [])
  avg_diff25 := weekly_rankings.map fun s =>
    sumQ (weekDiffs (s.take 25)) / ((weekDiffs (s.take 25)).length : ℚ)
  max_diff25 := weekly_rankings.map fun s => pyMax (weekDiffs (s.take 25))

/-- `run_multiple_simulations(num_runs, num_teams, num_weeks)`: run the
season `num_runs` times (each `seed=None` call reseeds the global generator,
modelled by one stream per run), compute the six series per run, then average
them element-wise over the runs (`run[w]` is always in range since every
series has length `num_weeks + 1`). -/
def run_multiple_simulations (num_runs num_teams num_weeks : Nat) (rs : Nat → Rand) :
    Option Stats :=
  match (List.range num_runs).mapM
      (fun k => (simulate_single_season num_teams num_weeks (rs k)).map compute_weekly_stats) with
  | none => none
  | some runs =>
    let weeks_count := num_weeks + 1
    let avgAt : (Stats → List ℚ) → List ℚ := fun proj =>
      (List.range weeks_count).map fun w =>
        sumQ (runs.map fun st => (proj st).getD w 0) / (num_runs : ℚ)
    some ⟨avgAt Stats.avg_diff, avgAt Stats.max_diff, avgAt Stats.biggest_rise,
      avgAt Stats.biggest_fall, avgAt Stats.avg_diff25, avgAt Stats.max_diff25⟩

/-- `simWeeks` returns exactly one snapshot per remaining week. -/
theorem simWeeks_length (num_teams : Nat) (r : Rand) :
    ∀ (rem w : Nat) (teams cur : List Team) (rest : List (List Team)),
      simWeeks num_teams r rem w teams cur = some rest → rest.length = rem := by
  intro rem
  induction rem with
  | zero =>
    intro w teams cur rest h
    simp only [simWeeks] at h
    cases h
    rfl
  | succ n ih =>
    intro w teams cur rest h
    rcases hstep : step num_teams r w teams cur with _ | ⟨teams2, newOrder⟩ <;>
      simp only [simWeeks, hstep] at h
    · cases h
    · rcases hrest : simWeeks num_teams r n (w + 1) teams2 newOrder with _ | rest' <;>
        simp only [hrest] at h
      · cases h
      · cases h
        simp [ih _ _ _ _ hrest]

/-- A successful season returns `num_weeks + 1` snapshots. -/
theorem simulate_length {num_teams num_weeks : Nat} {r : Rand} {snaps : List (List Team)}
    (hs : simulate_single_season num_teams num_weeks r = some snaps) :
    snaps.length = num_weeks + 1 := by
  simp only [simulate_single_season] at hs
  rcases hrest : simWeeks num_teams r num_weeks 1 (generate_teams num_teams)
      ((generate_teams num_teams).insertionSort cfpLeRel) with _ | rest <;>
    rw [hrest] at hs
  · cases hs
  · cases hs
    simp [simWeeks_length _ _ _ _ _ _ _ hrest]

/-- Reading every position of a list of known length reproduces the list. -/
theorem range_map_getD {l : List ℚ} {n : Nat} (h : l.length = n) :
    (List.range n).map (fun w => l.getD w 0) = l := by
  apply List.ext_getElem
  · simp [h]
  · intro i h1 h2
    have hi : i < n := by simpa using h1
    simp [List.getD_eq_getElem?_getD, List.getElem?_eq_getElem (by omega : i < l.length)]

/-- C9: averaging over a single run changes nothing — `run_multiple_simulations`
with `num_runs = 1` equals `compute_weekly_stats` applied directly to the one
`simulate_single_season` result obtained from the same random stream. -/
theorem run_single_equals_direct (num_teams num_weeks : Nat) (rs : Nat → Rand) :
    run_multiple_simulations 1 num_teams num_weeks rs =
      (simulate_single_season num_teams num_weeks (rs 0)).map compute_weekly_stats := by
  have hr1 : List.range 1 = [0] := rfl
  have hsumQ : ∀ x : ℚ, sumQ [x] = x := by
    intro x
    simp [sumQ]
  rcases hsim : simulate_single_season num_teams num_weeks (rs 0) with _ | snaps
  · have hm : List.mapM (fun k => Option.map compute_weekly_stats
        (simulate_single_season num_teams num_weeks (rs k))) [0] = none := by
      rw [List.mapM_cons, hsim]
      rfl
    simp only [run_multiple_simulations, hr1, hm]
    rfl
  · have hm : List.mapM (fun k => Option.map compute_weekly_stats
        (simulate_single_season num_teams num_weeks (rs k))) [0] =
        some [compute_weekly_stats snaps] := by
      rw [List.mapM_cons, hsim]
      rfl
    have hlen : snaps.length = num_weeks + 1 := simulate_length hsim
    have h1 : (compute_weekly_stats snaps).avg_diff.length = num_weeks + 1 := by
      simp [compute_weekly_stats, hlen]
    have h2 : (compute_weekly_stats snaps).max_diff.length = num_weeks + 1 := by
      simp [compute_weekly_stats, hlen]
    have h3 : (compute_weekly_stats snaps).biggest_rise.length = num_weeks + 1 := by
      simp [compute_weekly_stats, hlen]
    have h4 : (compute_weekly_stats snaps).biggest_fall.length = num_weeks + 1 := by
      simp [compute_weekly_stats, hlen]
    have h5 : (compute_weekly_stats snaps).avg_diff25.length = num_weeks + 1 := by
      simp [compute_weekly_stats, hlen]
    have h6 : (compute_weekly_stats snaps).max_diff25.length = num_weeks + 1 := by
      simp [compute_weekly_stats, hlen]
    simp only [run_multiple_simulations, hr1, hm, Option.map_some,
      List.map_cons, List.map_nil, hsumQ, Nat.cast_one, div_one]
    refine congrArg some ?_
    rcases hst : compute_weekly_stats snaps with ⟨s1, s2, s3, s4, s5, s6⟩
    rw [hst] at h1 h2 h3 h4 h5 h6
    simp only [Stats.mk.injEq]
    exact ⟨range_map_getD h1, range_map_getD h2, range_map_getD h3, range_map_getD h4,
      range_map_getD h5, range_map_getD h6⟩

/-! ### List helper lemmas for the ranking invariants -/

/-- `find?` returns the element at `findIdx`. -/
theorem find?_eq_getElem?_findIdx {α : Type} (p : α → Bool) (l : List α) :
    l.find? p = l[l.findIdx p]? := by
  induction l with
  | nil => rfl
  | cons a l ih =>
    by_cases h : p a
    · simp [List.find?_cons, List.findIdx_cons, h]
    · simp [List.find?_cons, List.findIdx_cons, h, ih]

/-- With pairwise-distinct ids, `find?` by the id of a member returns exactly
that member. -/
theorem find?_id_of_mem {l : List Team} (hnd : (l.map Team.id).Nodup) {t : Team}
    {nm : Nat} (ht : t ∈ l) (hid : t.id = nm) :
    l.find? (fun u => u.id == nm) = some t := by
  induction l with
  | nil => cases ht
  | cons a l ih =>
    rw [List.map_cons, List.nodup_cons] at hnd
    rcases List.mem_cons.1 ht with rfl | ht'
    · simp [List.find?_cons, hid]
    · have hne : ¬ (a.id == nm) = true := by
        simp only [beq_iff_eq]
        intro he
        exact hnd.1 (he.trans hid.symm ▸ List.mem_map_of_mem Team.id ht')
      simp only [List.find?_cons, hne]
      exact ih hnd.2 ht'

/-- `find?` by id is invariant under permutation when ids are pairwise
distinct. -/
theorem find?_id_perm {l₁ l₂ : List Team} (hp : l₁.Perm l₂)
    (hnd : (l₁.map Team.id).Nodup) (nm : Nat) :
    l₁.find? (fun u => u.id == nm) = l₂.find? (fun u => u.id == nm) := by
  have hnd₂ : (l₂.map Team.id).Nodup := (hp.map Team.id).nodup_iff.1 hnd
  by_cases hex : ∃ t ∈ l₁, t.id = nm
  · obtain ⟨t, ht, hid⟩ := hex
    rw [find?_id_of_mem hnd ht hid, find?_id_of_mem hnd₂ (hp.mem_iff.1 ht) hid]
  · rw [List.find?_eq_none.2, List.find?_eq_none.2]
    · intro x hx
      simp only [beq_iff_eq]
      exact fun he => hex ⟨x, hp.mem_iff.2 hx, he⟩
    · intro x hx
      simp only [beq_iff_eq]
      exact fun he => hex ⟨x, hx, he⟩

/-- With pairwise-distinct ids, the `findIdx` of the id of the element at
position `p` is `p` itself. -/
theorem findIdx_id_getElem {l : List Team} (hnd : (l.map Team.id).Nodup)
    {p : Nat} (hp : p < l.length) :
    l.findIdx (fun u => u.id == (l.get ⟨p, hp⟩).id) = p := by
  set q := l.findIdx (fun u => u.id == (l.get ⟨p, hp⟩).id) with hq
  have hex : ∃ x ∈ l, (fun u => u.id == (l.get ⟨p, hp⟩).id) x = true :=
    ⟨l.get ⟨p, hp⟩, l.get_mem _ _, by simp⟩
  have hqlt : q < l.length := List.findIdx_lt_length_of_exists hex
  have hpred : ((l.get ⟨q, hqlt⟩).id == (l.get ⟨p, hp⟩).id) = true := by
    have := List.findIdx_getElem (w := hqlt)
    simpa using this
  have hqp : (l.map Team.id).get ⟨q, by simpa using hqlt⟩ =
      (l.map Team.id).get ⟨p, by simpa using hp⟩ := by
    simp only [List.get_eq_getElem, List.getElem_map]
    simpa using hpred
  have := (List.Nodup.get_inj_iff hnd).1 hqp
  simpa using this

/-- Positions of an ordered pair sublist. -/
theorem pair_sublist_positions {α : Type} {a b : α} :
    ∀ {l : List α}, List.Sublist [a, b] l →
      ∃ (i j : Nat) (hi : i < l.length) (hj : j < l.length),
        i < j ∧ l.get ⟨i, hi⟩ = a ∧ l.get ⟨j, hj⟩ = b := by
  intro l
  induction l with
  | nil => intro h; cases h
  | cons x l ih =>
    intro h
    cases h with
    | cons _ h' =>
      obtain ⟨i, j, hi, hj, hij, ha, hb⟩ := ih h'
      exact ⟨i + 1, j + 1, by simpa using hi, by simpa using hj, by omega, ha, hb⟩
    | cons₂ _ h' =>
      have hb : b ∈ l := List.singleton_sublist.1 h'
      obtain ⟨j, hj, hbj⟩ := List.mem_iff_getElem.1 hb
      exact ⟨0, j + 1, by simp, by simpa using hj, by omega, rfl, hbj⟩

/-- An ordered position pair yields a pair sublist. -/
theorem positions_pair_sublist {α : Type} :
    ∀ {l : List α} {i j : Nat} (hi : i < l.length) (hj : j < l.length), i < j →
      List.Sublist [l.get ⟨i, hi⟩, l.get ⟨j, hj⟩] l := by
  intro l
  induction l with
  | nil =>
    intro i j hi hj hij
    simp at hi
  | cons x l ih =>
    intro i j hi hj hij
    match i, j with
    | 0, j + 1 =>
      have hj' : j < l.length := by simpa using hj
      have : l.get ⟨j, hj'⟩ ∈ l := l.get_mem _ _
      simpa using List.Sublist.cons₂ x (List.singleton_sublist.2 this)
    | i + 1, j + 1 =>
      have hi' : i < l.length := by simpa using hi
      have hj' : j < l.length := by simpa using hj
      simpa using List.Sublist.cons x (ih hi' hj' (by omega))

/-- Mapping over a `modify` that does not change the mapped value leaves the
mapped list unchanged. -/
theorem map_modify_of_invariant {α β : Type} (f : α → α) (g : α → β) (n : Nat)
    (l : List α) (h : ∀ a, g (f a) = g a) :
    (l.modify f n).map g = l.map g := by
  apply List.ext_getElem?
  intro m
  rw [List.getElem?_map, List.getElem?_map, List.getElem?_modify]
  cases l[m]? with
  | none => rfl
  | some a =>
    by_cases hm : n = m <;> simp [hm, h]

/-! ### Characterising the pairing of an even-length shuffled list -/

/-- An Option-valued `mapM` over a `map`. -/
theorem mapM_option_map {α β γ : Type} (f : β → Option γ) (g : α → β) (l : List α) :
    (l.map g).mapM f = l.mapM fun a => f (g a) := by
  induction l with
  | nil => rfl
  | cons a l ih => rw [List.map_cons, List.mapM_cons, List.mapM_cons, ih]

/-- The even positions of `range (n + 2)`. -/
theorem filter_even_range_succ_succ (n : Nat) :
    (List.range (n + 2)).filter (fun i => i % 2 == 0) =
      0 :: ((List.range n).filter (fun i => i % 2 == 0)).map (· + 2) := by
  have h1 : List.range (n + 2) = 0 :: 1 :: (List.range n).map (· + 2) := by
    rw [List.range_succ_eq_map, List.range_succ_eq_map, List.map_cons, List.map_map]
    rfl
  rw [h1]
  simp only [List.filter_cons]
  norm_num
  rw [List.filter_map]
  congr 1
  apply List.filter_congr
  intro i hi
  simp only [Function.comp_apply, Nat.add_mod_right]

/-- On an even-length list, the pairing comprehension succeeds and produces
exactly the consecutive pairs. -/
theorem pairup_eq_chunkPairs : ∀ (l : List Nat), l.length % 2 = 0 →
    pairup l l.length = some (chunkPairs l)
  | [], _ => rfl
  | [a], h => by simp at h
  | a :: b :: rest, h => by
    have hr : rest.length % 2 = 0 := by
      simp only [List.length_cons] at h
      omega
    have ih := pairup_eq_chunkPairs rest hr
    unfold pairup at ih ⊢
    have hlen : (a :: b :: rest).length = rest.length + 2 := by simp
    rw [hlen, filter_even_range_succ_succ, List.mapM_cons, mapM_option_map]
    have hbody : ∀ i : Nat,
        (match (a :: b :: rest)[i + 2]?, (a :: b :: rest)[i + 2 + 1]? with
          | some x, some y => some (x, y)
          | _, _ => none) =
        (match rest[i]?, rest[i + 1]? with
          | some x, some y => some (x, y)
          | _, _ => none) := by
      intro i
      simp only [List.getElem?_cons_succ]
    simp only [hbody]
    rw [ih]
    simp [chunkPairs]

/-- The endpoints of the consecutive pairing of an even-length list recover
the list. -/
theorem endpoints_chunkPairs : ∀ (l : List Nat), l.length % 2 = 0 →
    endpoints (chunkPairs l) = l
  | [], _ => rfl
  | [a], h => by simp at h
  | a :: b :: rest, h => by
    have hr : rest.length % 2 = 0 := by
      simp only [List.length_cons] at h
      omega
    simp only [chunkPairs, endpoints]
    rw [endpoints_chunkPairs rest hr]

/-- Both components of a matchup occur among the endpoints. -/
theorem mem_endpoints_of_mem :
    ∀ {ms : List (Nat × Nat)} {m : Nat × Nat}, m ∈ ms →
      m.1 ∈ endpoints ms ∧ m.2 ∈ endpoints ms := by
  intro ms
  induction ms with
  | nil => intro m hm; cases hm
  | cons x ms ih =>
    intro m hm
    rcases List.mem_cons.1 hm with rfl | hm'
    · exact ⟨List.mem_cons_self _ _, List.mem_cons_of_mem _ (List.mem_cons_self _ _)⟩
    · obtain ⟨h1, h2⟩ := ih hm'
      exact ⟨List.mem_cons_of_mem _ (List.mem_cons_of_mem _ h1),
        List.mem_cons_of_mem _ (List.mem_cons_of_mem _ h2)⟩

/-! ### Per-matchup and per-week update lemmas -/

/-- Every award of the standard table lies in `{0, ..., 5}`. -/
theorem determine_cfp_points_bounds (a b : Int) (w : Bool) :
    0 ≤ determine_cfp_points a b w ∧ determine_cfp_points a b w ≤ 5 := by
  cases w <;> simp only [determine_cfp_points, if_true, Bool.false_eq_true, if_false] <;>
    split_ifs <;> omega

/-- A successful `playMatch` is the double points update at the two matchup
indices. -/
theorem playMatch_eq_some {teams : List Team} {lm : Nat → Int} {b : Bool}
    {m : Nat × Nat} {out : List Team} (h : playMatch teams lm b m = some out) :
    ∃ team_a team_b, teams[m.1]? = some team_a ∧ teams[m.2]? = some team_b ∧
      out = (teams.modify
        (fun t => { t with season_points := t.season_points +
          determine_cfp_points (lm team_a.id) (lm team_b.id) b }) m.1).modify
        (fun t => { t with season_points := t.season_points +
          determine_cfp_points (lm team_b.id) (lm team_a.id) (!b) }) m.2 := by
  unfold playMatch at h
  rcases h1 : teams[m.1]? with _ | ta <;> rcases h2 : teams[m.2]? with _ | tb <;>
    simp only [h1, h2] at h
  · cases h
  · cases h
  · cases h
  · cases h
    exact ⟨ta, tb, rfl, rfl, rfl⟩

/-- A successful `playMatch` preserves length, ids and true ranks. -/
theorem playMatch_preserves {teams : List Team} {lm : Nat → Int} {b : Bool}
    {m : Nat × Nat} {out : List Team} (h : playMatch teams lm b m = some out) :
    out.length = teams.length ∧ out.map Team.id = teams.map Team.id ∧
      out.map Team.true_rank = teams.map Team.true_rank ∧
      out.map Team.cfp_rank = teams.map Team.cfp_rank := by
  obtain ⟨ta, tb, h1, h2, rfl⟩ := playMatch_eq_some h
  refine ⟨by simp, ?_, ?_, ?_⟩ <;>
    (rw [map_modify_of_invariant, map_modify_of_invariant] <;> exact fun t => rfl)

/-- A successful `playMatch` leaves teams outside the matchup untouched. -/
theorem playMatch_untouched {teams : List Team} {lm : Nat → Int} {b : Bool}
    {m : Nat × Nat} {out : List Team} (h : playMatch teams lm b m = some out)
    (k : Nat) (hk1 : k ≠ m.1) (hk2 : k ≠ m.2) : out[k]? = teams[k]? := by
  obtain ⟨ta, tb, h1, h2, rfl⟩ := playMatch_eq_some h
  rw [List.getElem?_modify, List.getElem?_modify]
  cases teams[k]? with
  | none => rfl
  | some t => simp [Ne.symm hk1, Ne.symm hk2]

/-- A successful `playMatch` on two distinct indices adds between 0 and 5
points to each of the two teams, changing nothing else about them. -/
theorem playMatch_touched {teams : List Team} {lm : Nat → Int} {b : Bool}
    {m : Nat × Nat} {out : List Team} (h : playMatch teams lm b m = some out)
    (hne : m.1 ≠ m.2) :
    (∃ ta pa, teams[m.1]? = some ta ∧ 0 ≤ pa ∧ pa ≤ 5 ∧
      out[m.1]? = some { ta with season_points := ta.season_points + pa }) ∧
    (∃ tb pb, teams[m.2]? = some tb ∧ 0 ≤ pb ∧ pb ≤ 5 ∧
      out[m.2]? = some { tb with season_points := tb.season_points + pb }) := by
  obtain ⟨ta, tb, h1, h2, rfl⟩ := playMatch_eq_some h
  constructor
  · refine ⟨ta, determine_cfp_points (lm ta.id) (lm tb.id) b, h1,
      (determine_cfp_points_bounds _ _ _).1, (determine_cfp_points_bounds _ _ _).2, ?_⟩
    rw [List.getElem?_modify, List.getElem?_modify, h1]
    simp [Ne.symm hne]
  · refine ⟨tb, determine_cfp_points (lm tb.id) (lm ta.id) (!b), h2,
      (determine_cfp_points_bounds _ _ _).1, (determine_cfp_points_bounds _ _ _).2, ?_⟩
    rw [List.getElem?_modify, List.getElem?_modify, h2]
    simp [hne]

/-- The weekly fold preserves length, ids, true ranks and committee-rank
fields, and leaves teams in no matchup untouched. -/
theorem foldlM_playMatch_spec (lm : Nat → Int) (r : Rand) (w : Nat) :
    ∀ (jms : List (Nat × Nat × Nat)) (teams out : List Team),
      jms.foldlM (fun acc jm => playMatch acc lm (r.win w jm.1) jm.2) teams = some out →
      out.length = teams.length ∧ out.map Team.id = teams.map Team.id ∧
        out.map Team.true_rank = teams.map Team.true_rank ∧
        out.map Team.cfp_rank = teams.map Team.cfp_rank ∧
        (∀ k, (∀ jm ∈ jms, k ≠ jm.2.1 ∧ k ≠ jm.2.2) → out[k]? = teams[k]?) := by
  intro jms
  induction jms with
  | nil =>
    intro teams out h
    simp only [List.foldlM_nil] at h
    cases h
    exact ⟨rfl, rfl, rfl, rfl, fun _ _ => rfl⟩
  | cons jm jms ih =>
    intro teams out h
    rcases hmid : playMatch teams lm (r.win w jm.1) jm.2 with _ | mid <;>
      rw [List.foldlM_cons, hmid] at h
    · cases h
    · simp only [Option.bind_eq_bind, Option.some_bind] at h
      obtain ⟨hl, hid, htr, hcf, hun⟩ := ih mid out h
      obtain ⟨hl', hid', htr', hcf'⟩ := playMatch_preserves hmid
      refine ⟨hl.trans hl', hid.trans hid', htr.trans htr', hcf.trans hcf', ?_⟩
      intro k hk
      have h1 := hk jm (List.mem_cons_self _ _)
      rw [hun k fun jm' hjm' => hk jm' (List.mem_cons_of_mem _ hjm')]
      exact playMatch_untouched hmid k h1.1 h1.2

/-- The weekly fold succeeds when every matchup index is in range. -/
theorem foldlM_playMatch_some (lm : Nat → Int) (r : Rand) (w : Nat) :
    ∀ (jms : List (Nat × Nat × Nat)) (teams : List Team),
      (∀ jm ∈ jms, jm.2.1 < teams.length ∧ jm.2.2 < teams.length) →
      ∃ out, jms.foldlM (fun acc jm => playMatch acc lm (r.win w jm.1) jm.2) teams = some out := by
  intro jms
  induction jms with
  | nil =>
    intro teams _
    exact ⟨teams, rfl⟩
  | cons jm jms ih =>
    intro teams hk
    obtain ⟨hk1, hk2⟩ := hk jm (List.mem_cons_self _ _)
    have h1 : teams[jm.2.1]? = some (teams.get ⟨jm.2.1, hk1⟩) := List.getElem?_eq_getElem hk1
    have h2 : teams[jm.2.2]? = some (teams.get ⟨jm.2.2, hk2⟩) := List.getElem?_eq_getElem hk2
    have hmid : ∃ mid, playMatch teams lm (r.win w jm.1) jm.2 = some mid := by
      unfold playMatch
      rw [h1, h2]
      exact ⟨_, rfl⟩
    obtain ⟨mid, hmid⟩ := hmid
    have hlen : mid.length = teams.length := (playMatch_preserves hmid).1
    obtain ⟨out, hout⟩ := ih mid fun jm' hjm' => by
      rw [hlen]
      exact hk jm' (List.mem_cons_of_mem _ hjm')
    refine ⟨out, ?_⟩
    rw [List.foldlM_cons, hmid]
    simp only [Option.bind_eq_bind, Option.some_bind]
    exact hout

/-- Over pairwise-disjoint matchups, the weekly fold increases each team's
season points by at least 0 and at most 5. -/
theorem foldlM_playMatch_points (lm : Nat → Int) (r : Rand) (w : Nat) :
    ∀ (jms : List (Nat × Nat × Nat)) (teams out : List Team),
      (endpoints (jms.map Prod.snd)).Nodup →
      jms.foldlM (fun acc jm => playMatch acc lm (r.win w jm.1) jm.2) teams = some out →
      ∀ (k : Nat) (t u : Team), teams[k]? = some t → out[k]? = some u →
        t.id = u.id ∧ t.season_points ≤ u.season_points ∧
          u.season_points ≤ t.season_points + 5 := by
  intro jms
  induction jms with
  | nil =>
    intro teams out _ h k t u ht hu
    simp only [List.foldlM_nil] at h
    cases h
    rw [ht] at hu
    cases hu
    exact ⟨rfl, le_refl _, by omega⟩
  | cons jm jms ih =>
    intro teams out hnd h k t u ht hu
    rw [List.map_cons] at hnd
    simp only [endpoints, List.nodup_cons, List.mem_cons, not_or] at hnd
    obtain ⟨⟨hne, hnm1⟩, hnm2, hndrest⟩ := hnd
    rcases hmid : playMatch teams lm (r.win w jm.1) jm.2 with _ | mid <;>
      rw [List.foldlM_cons, hmid] at h
    · cases h
    · simp only [Option.bind_eq_bind, Option.some_bind] at h
      by_cases hk1 : k = jm.2.1
      · subst hk1
        obtain ⟨⟨ta, pa, hta, hpa0, hpa5, hmida⟩, _⟩ := playMatch_touched hmid hne
        rw [ht] at hta
        cases hta
        have hkun : ∀ jm' ∈ jms, jm.2.1 ≠ jm'.2.1 ∧ jm.2.1 ≠ jm'.2.2 := by
          intro jm' hjm'
          have hmm := mem_endpoints_of_mem (List.mem_map_of_mem Prod.snd hjm')
          exact ⟨fun he => hnm1 (by rw [he]; exact hmm.1),
            fun he => hnm1 (by rw [he]; exact hmm.2)⟩
        have hout := (foldlM_playMatch_spec lm r w jms mid out h).2.2.2.2 jm.2.1 hkun
        rw [hout, hmida] at hu
        cases hu
        exact ⟨rfl, by show t.season_points ≤ t.season_points + pa; omega,
          by show t.season_points + pa ≤ t.season_points + 5; omega⟩
      · by_cases hk2 : k = jm.2.2
        · subst hk2
          obtain ⟨_, ⟨tb, pb, htb, hpb0, hpb5, hmidb⟩⟩ := playMatch_touched hmid hne
          rw [ht] at htb
          cases htb
          have hkun : ∀ jm' ∈ jms, jm.2.2 ≠ jm'.2.1 ∧ jm.2.2 ≠ jm'.2.2 := by
            intro jm' hjm'
            have hmm := mem_endpoints_of_mem (List.mem_map_of_mem Prod.snd hjm')
            exact ⟨fun he => hnm2 (by rw [he]; exact hmm.1),
              fun he => hnm2 (by rw [he]; exact hmm.2)⟩
          have hout := (foldlM_playMatch_spec lm r w jms mid out h).2.2.2.2 jm.2.2 hkun
          rw [hout, hmidb] at hu
          cases hu
          exact ⟨rfl, by show t.season_points ≤ t.season_points + pb; omega,
            by show t.season_points + pb ≤ t.season_points + 5; omega⟩
        · have hmk : mid[k]? = teams[k]? := playMatch_untouched hmid k hk1 hk2
          exact ih mid out hndrest h k t u (hmk.trans ht) hu

/-! ### The weekly invariant -/

/-- The team ids `1..n` in order. -/
def natIds (n : Nat) : List Nat := (List.range n).map (· + 1)

/-- The integer ranks `1..n` in order. -/
def intRange (n : Nat) : List Int := (List.range n).map fun i : Nat => (i : Int) + 1

theorem natIds_nodup (n : Nat) : (natIds n).Nodup :=
  (List.nodup_range n).map fun a b h => by omega

theorem intRange_length (n : Nat) : (intRange n).length = n := by
  unfold intRange
  rw [List.length_map, List.length_range]

theorem natIds_length (n : Nat) : (natIds n).length = n := by
  unfold natIds
  rw [List.length_map, List.length_range]

theorem intRange_getElem? {n i : Nat} (h : i < n) :
    (intRange n)[i]? = some ((i : Int) + 1) := by
  unfold intRange
  rw [List.getElem?_map, List.getElem?_range h]
  rfl

theorem assignRanks_length (l : List Team) : (assignRanks l).length = l.length := by
  unfold assignRanks
  rw [List.length_map, List.enum_length]

/-- The element of `assignRanks l` at position `i`. -/
theorem assignRanks_getElem? {l : List Team} {i : Nat} (h : i < l.length) :
    (assignRanks l)[i]? = some { l.get ⟨i, h⟩ with cfp_rank := (i : Int) + 1 } := by
  unfold assignRanks
  rw [List.getElem?_map]
  have he : l.enum[i]? = some (i, l.get ⟨i, h⟩) := by
    rw [List.getElem?_eq_getElem (by rw [List.enum_length]; exact h)]
    rw [List.getElem_enum]
    rfl
  rw [he]
  rfl

/-- `assignRanks` writes exactly the committee ranks `1..len` in order. -/
theorem assignRanks_map_cfp (l : List Team) :
    (assignRanks l).map Team.cfp_rank = intRange l.length := by
  apply List.ext_getElem?
  intro i
  by_cases h : i < l.length
  · rw [List.getElem?_map, assignRanks_getElem? h, intRange_getElem? h]
    rfl
  · rw [List.getElem?_eq_none, List.getElem?_eq_none]
    · rw [intRange_length]; omega
    · rw [List.length_map, assignRanks_length]; omega

/-- `assignRanks` does not change any field other than `cfp_rank`. -/
theorem assignRanks_map_field {β : Type} (g : Team → β)
    (hg : ∀ t c, g { t with cfp_rank := c } = g t) (l : List Team) :
    (assignRanks l).map g = l.map g := by
  apply List.ext_getElem?
  intro i
  by_cases h : i < l.length
  · rw [List.getElem?_map, List.getElem?_map, assignRanks_getElem? h,
      List.getElem?_eq_getElem h]
    simp only [Option.map_some', List.get_eq_getElem]
    rw [hg (l[i]) ((i : Int) + 1)]
  · rw [List.getElem?_eq_none, List.getElem?_eq_none]
    · rw [List.length_map]; omega
    · rw [List.length_map, assignRanks_length]; omega

/-- With pairwise-distinct ids, `assignRanks` is the map that gives each team
one plus its position as committee rank. -/
theorem assignRanks_eq_map_posRank {l : List Team} (hnd : (l.map Team.id).Nodup) :
    assignRanks l = l.map fun t =>
      { t with cfp_rank := ((l.findIdx fun u => u.id == t.id : Nat) : Int) + 1 } := by
  apply List.ext_getElem?
  intro i
  by_cases h : i < l.length
  · rw [assignRanks_getElem? h, List.getElem?_map, List.getElem?_eq_getElem h]
    simp only [Option.map_some', List.get_eq_getElem]
    have hidx := findIdx_id_getElem hnd h
    simp only [List.get_eq_getElem] at hidx
    rw [hidx]
  · rw [List.getElem?_eq_none (by rw [assignRanks_length]; omega),
      List.getElem?_eq_none (by rw [List.length_map]; omega)]

/-- The invariant carried from week to week: the master list holds teams
`1..N` in original order (ids and true ranks fixed and equal to `1..N`),
points are non-negative, and the current committee order is a rearrangement
of the master list whose committee ranks read `1..N` top to bottom. -/
structure Inv (N : Nat) (teams cur : List Team) : Prop where
  tids : teams.map Team.id = natIds N
  ttrue : teams.map Team.true_rank = intRange N
  tpts : ∀ t ∈ teams, 0 ≤ t.season_points
  cperm : cur.Perm teams
  ccfp : cur.map Team.cfp_rank = intRange N

/-- The relation between two consecutive weekly snapshots: the tie-break law
(equal points resolved by the previous week's committee rank) and the bounded
non-negative weekly points growth. -/
def Adj (prev next : List Team) : Prop :=
  (∀ a ∈ next, ∀ b ∈ next, a.season_points = b.season_points →
    rankOf prev a.id < rankOf prev b.id → a.cfp_rank < b.cfp_rank) ∧
  (∀ nm : Nat, pointsOf prev nm ≤ pointsOf next nm ∧
    pointsOf next nm ≤ pointsOf prev nm + 5)

/-- On a snapshot whose committee ranks read `1..N`, the recorded rank of a
present id is one plus its position. -/
theorem rankOf_eq_findIdx {cur : List Team} {N : Nat}
    (hcfp : cur.map Team.cfp_rank = intRange N) {nm : Nat}
    (hmem : ∃ t ∈ cur, t.id = nm) :
    rankOf cur nm = ((cur.findIdx fun t => t.id == nm : Nat) : Int) + 1 := by
  have hlt : (cur.findIdx fun t => t.id == nm) < cur.length := by
    apply List.findIdx_lt_length_of_exists
    obtain ⟨t, ht, hid⟩ := hmem
    exact ⟨t, ht, by simp [hid]⟩
  have hlen : cur.length = N := by
    have h1 := congrArg List.length hcfp
    rwa [List.length_map, intRange_length] at h1
  have hsome : some ((cur.get ⟨_, hlt⟩).cfp_rank) =
      some (((cur.findIdx fun t => t.id == nm : Nat) : Int) + 1) := by
    have h2 : (cur.map Team.cfp_rank)[(cur.findIdx fun t => t.id == nm)]? =
        some ((cur.get ⟨_, hlt⟩).cfp_rank) := by
      rw [List.getElem?_map, List.getElem?_eq_getElem hlt]
      rfl
    rw [hcfp, intRange_getElem? (by omega)] at h2
    exact h2.symm
  unfold rankOf
  rw [find?_eq_getElem?_findIdx, List.getElem?_eq_getElem hlt]
  exact Option.some.inj hsome

/-- `findIdx` on a mapped list. -/
theorem findIdx_map_comp {α β : Type} (f : α → β) (p : β → Bool) :
    ∀ (l : List α), (l.map f).findIdx p = l.findIdx fun a => p (f a)
  | [] => rfl
  | a :: l => by
    rw [List.map_cons, List.findIdx_cons, List.findIdx_cons, findIdx_map_comp f p l]

/-- Two lists with the same id sequence search ids at the same position. -/
theorem findIdx_id_eq_of_map_id_eq {l₁ l₂ : List Team}
    (hid : l₁.map Team.id = l₂.map Team.id) (nm : Nat) :
    (l₁.findIdx fun u => u.id == nm) = l₂.findIdx fun u => u.id == nm := by
  have h1 := findIdx_map_comp Team.id (fun i => i == nm) l₁
  have h2 := findIdx_map_comp Team.id (fun i => i == nm) l₂
  rw [← h1, ← h2, hid]

/-- `pointsOf` is invariant under permutation when ids are pairwise
distinct. -/
theorem pointsOf_perm {l₁ l₂ : List Team} (hp : l₁.Perm l₂)
    (hnd : (l₁.map Team.id).Nodup) (nm : Nat) : pointsOf l₁ nm = pointsOf l₂ nm := by
  unfold pointsOf
  rw [find?_id_perm hp hnd nm]

/-- `pointsOf` ignores a per-team rewrite that preserves ids and points. -/
theorem pointsOf_map {l : List Team} {F : Team → Team}
    (hid : ∀ t, (F t).id = t.id) (hpts : ∀ t, (F t).season_points = t.season_points)
    (nm : Nat) : pointsOf (l.map F) nm = pointsOf l nm := by
  unfold pointsOf
  rw [List.find?_map]
  have hc : ((fun u => u.id == nm) ∘ F) = fun u => u.id == nm := by
    funext u
    rw [Function.comp_apply, hid]
  rw [hc]
  cases l.find? fun u => u.id == nm with
  | none => rfl
  | some t => simp [hpts]

/-- All points of a snapshot are non-negative exactly when every recorded
`pointsOf` is. -/
theorem pointsOf_nonneg {l : List Team} (h : ∀ t ∈ l, 0 ≤ t.season_points)
    (nm : Nat) : 0 ≤ pointsOf l nm := by
  unfold pointsOf
  cases hf : l.find? fun u => u.id == nm with
  | none => exact le_refl 0
  | some t => exact h t (List.mem_of_find?_eq_some hf)

/-- Propagating the freshly assigned committee ranks back into the master
list (Python's aliasing) produces a rearrangement of the new order. -/
theorem syncRanks_perm {out arr : List Team}
    (hnd : (arr.map Team.id).Nodup) (hperm : arr.Perm out) :
    (assignRanks arr).Perm (syncRanks out (assignRanks arr)) := by
  have hA : assignRanks arr = arr.map fun t =>
      { t with cfp_rank := ((arr.findIdx fun u => u.id == t.id : Nat) : Int) + 1 } :=
    assignRanks_eq_map_posRank hnd
  have hB : syncRanks out (assignRanks arr) = out.map fun t =>
      { t with cfp_rank := ((arr.findIdx fun u => u.id == t.id : Nat) : Int) + 1 } := by
    unfold syncRanks
    apply List.map_congr_left
    intro t ht
    have htid : t.id ∈ arr.map Team.id := by
      have h1 : t.id ∈ out.map Team.id := List.mem_map_of_mem _ ht
      exact ((hperm.map Team.id).mem_iff).2 h1
    obtain ⟨t', ht', hid'⟩ := List.mem_map.1 htid
    have hfind : (assignRanks arr).find? (fun u => u.id == t.id) =
        some { t' with cfp_rank := ((arr.findIdx fun u => u.id == t'.id : Nat) : Int) + 1 } := by
      rw [hA, List.find?_map]
      have hc : ((fun u : Team => u.id == t.id) ∘ fun v : Team =>
          { v with cfp_rank := ((arr.findIdx fun u => u.id == v.id : Nat) : Int) + 1 }) =
          fun u : Team => u.id == t.id := rfl
      rw [hc, find?_id_of_mem hnd ht' hid']
      rfl
    rw [hfind, hid']
  rw [hB, hA]
  exact hperm.map _

/-- `syncRanks` does not change any field other than `cfp_rank`. -/
theorem syncRanks_map_field {β : Type} (g : Team → β)
    (hg : ∀ t c, g { t with cfp_rank := c } = g t) (teams no : List Team) :
    (syncRanks teams no).map g = teams.map g := by
  unfold syncRanks
  rw [List.map_map]
  apply List.map_congr_left
  intro t ht
  rw [Function.comp_apply]
  cases no.find? fun u => u.id == t.id with
  | none => rfl
  | some u => exact hg t u.cfp_rank

/-- The tie-break law of the two stable sorts: if `s1` is sorted by previous
position in `cur`, and `s2` is obtained from `s1` by a stable sort on points
descending, then among equal-point teams the one ranked better last week gets
the better new rank in `assignRanks s2`. -/
theorem tiebreak_of_sorts {cur s1 s2 : List Team} {N : Nat}
    (hcfp : cur.map Team.cfp_rank = intRange N)
    (hs2nd : (s2.map Team.id).Nodup)
    (h21 : ∀ x ∈ s2, x ∈ s1)
    (hs1sorted : s1.Pairwise (idxLeRel fun nm => cur.findIdx fun t => t.id == nm))
    (hstab : ∀ x y : Team, ptsDescRel x y → List.Sublist [x, y] s1 → List.Sublist [x, y] s2)
    (hidmem : ∀ t ∈ s2, ∃ u ∈ cur, u.id = t.id) :
    ∀ a ∈ assignRanks s2, ∀ b ∈ assignRanks s2,
      a.season_points = b.season_points →
      rankOf cur a.id < rankOf cur b.id → a.cfp_rank < b.cfp_rank := by
  intro a ha b hb hpts hrank
  obtain ⟨i, hi, hia⟩ := List.mem_iff_getElem.1 ha
  obtain ⟨j, hj, hjb⟩ := List.mem_iff_getElem.1 hb
  have hi' : i < s2.length := by rwa [assignRanks_length] at hi
  have hj' : j < s2.length := by rwa [assignRanks_length] at hj
  have hia' : a = { s2.get ⟨i, hi'⟩ with cfp_rank := (i : Int) + 1 } := by
    have h1 := assignRanks_getElem? hi'
    rw [List.getElem?_eq_getElem hi, hia] at h1
    exact Option.some.inj h1
  have hjb' : b = { s2.get ⟨j, hj'⟩ with cfp_rank := (j : Int) + 1 } := by
    have h1 := assignRanks_getElem? hj'
    rw [List.getElem?_eq_getElem hj, hjb] at h1
    exact Option.some.inj h1
  have haid : a.id = (s2.get ⟨i, hi'⟩).id := by rw [hia']
  have hbid : b.id = (s2.get ⟨j, hj'⟩).id := by rw [hjb']
  have hapts : a.season_points = (s2.get ⟨i, hi'⟩).season_points := by rw [hia']
  have hbpts : b.season_points = (s2.get ⟨j, hj'⟩).season_points := by rw [hjb']
  have hamem : ∃ t ∈ cur, t.id = a.id := by
    obtain ⟨u, hu, hid⟩ := hidmem _ (s2.get_mem i hi')
    exact ⟨u, hu, by rw [haid]; exact hid⟩
  have hbmem : ∃ t ∈ cur, t.id = b.id := by
    obtain ⟨u, hu, hid⟩ := hidmem _ (s2.get_mem j hj')
    exact ⟨u, hu, by rw [hbid]; exact hid⟩
  rw [rankOf_eq_findIdx hcfp hamem, rankOf_eq_findIdx hcfp hbmem] at hrank
  have hkey : (cur.findIdx fun t => t.id == a.id) < cur.findIdx fun t => t.id == b.id := by
    omega
  have hane : s2.get ⟨i, hi'⟩ ≠ s2.get ⟨j, hj'⟩ := by
    intro he
    rw [haid, hbid, he] at hkey
    omega
  obtain ⟨p, hp, hpa⟩ := List.mem_iff_getElem.1 (h21 _ (s2.get_mem i hi'))
  obtain ⟨q, hq, hqb⟩ := List.mem_iff_getElem.1 (h21 _ (s2.get_mem j hj'))
  have hpq : p < q := by
    rcases lt_trichotomy p q with h | h | h
    · exact h
    · exfalso
      apply hane
      rw [← hpa, ← hqb]
      subst h
      rfl
    · exfalso
      have h1 := List.pairwise_iff_getElem.1 hs1sorted q p hq hp h
      rw [hpa, hqb] at h1
      unfold idxLeRel at h1
      simp only [] at h1
      rw [← haid, ← hbid] at h1
      omega
  have hsub1 : List.Sublist [s2.get ⟨i, hi'⟩, s2.get ⟨j, hj'⟩] s1 := by
    have h1 := positions_pair_sublist hp hq hpq
    simp only [List.get_eq_getElem] at h1 hpa hqb
    rwa [hpa, hqb] at h1
  have hsub2 := hstab _ _ (by unfold ptsDescRel; rw [← hapts, ← hbpts, hpts]) hsub1
  obtain ⟨p2, q2, hp2, hq2, hp2q2, hp2a, hq2b⟩ := pair_sublist_positions hsub2
  have hpi : p2 = i := by
    have h1 : (s2.map Team.id).get ⟨p2, by rw [List.length_map]; exact hp2⟩ =
        (s2.map Team.id).get ⟨i, by rw [List.length_map]; exact hi'⟩ := by
      simp only [List.get_eq_getElem, List.getElem_map]
      have h2 : s2.get ⟨p2, hp2⟩ = s2.get ⟨i, hi'⟩ := hp2a
      simp only [List.get_eq_getElem] at h2
      rw [h2]
    have h3 := (List.Nodup.get_inj_iff hs2nd).1 h1
    simpa using h3
  have hqj : q2 = j := by
    have h1 : (s2.map Team.id).get ⟨q2, by rw [List.length_map]; exact hq2⟩ =
        (s2.map Team.id).get ⟨j, by rw [List.length_map]; exact hj'⟩ := by
      simp only [List.get_eq_getElem, List.getElem_map]
      have h2 : s2.get ⟨q2, hq2⟩ = s2.get ⟨j, hj'⟩ := hq2b
      simp only [List.get_eq_getElem] at h2
      rw [h2]
    have h3 := (List.Nodup.get_inj_iff hs2nd).1 h1
    simpa using h3
  have hacfp : a.cfp_rank = (i : Int) + 1 := by rw [hia']
  have hbcfp : b.cfp_rank = (j : Int) + 1 := by rw [hjb']
  rw [hacfp, hbcfp]
  omega

/-- One week of the simulation succeeds from any state satisfying the
invariant, re-establishes the invariant, and relates the previous committee
order to the new snapshot by `Adj`. -/
theorem step_spec {N : Nat} {r : Rand} {w : Nat} {teams cur : List Team}
    (hN : N % 2 = 0) (hsh : (r.shuffle w).Perm (List.range N))
    (hinv : Inv N teams cur) :
    ∃ teams2 new_cfp_order, step N r w teams cur = some (teams2, new_cfp_order) ∧
      Inv N teams2 new_cfp_order ∧ Adj cur new_cfp_order := by
  have htlen : teams.length = N := by
    have h1 := congrArg List.length hinv.tids
    rwa [List.length_map, natIds_length] at h1
  have hilen : (r.shuffle w).length = N := by rw [hsh.length_eq, List.length_range]
  have hind : (r.shuffle w).Nodup := hsh.symm.nodup (List.nodup_range N)
  have himem : ∀ x ∈ r.shuffle w, x < N := fun x hx => List.mem_range.1 (hsh.mem_iff.1 hx)
  have heven : (r.shuffle w).length % 2 = 0 := by rw [hilen]; exact hN
  have hpair : pairup (r.shuffle w) N = some (chunkPairs (r.shuffle w)) := by
    have h1 := pairup_eq_chunkPairs (r.shuffle w) heven
    rwa [hilen] at h1
  have hends : endpoints (chunkPairs (r.shuffle w)) = r.shuffle w :=
    endpoints_chunkPairs _ heven
  have hendnd : (endpoints (chunkPairs (r.shuffle w))).Nodup := by
    rw [hends]; exact hind
  have hendmem : ∀ m ∈ chunkPairs (r.shuffle w), m.1 < N ∧ m.2 < N := by
    intro m hm
    obtain ⟨h1, h2⟩ := mem_endpoints_of_mem hm
    rw [hends] at h1 h2
    exact ⟨himem _ h1, himem _ h2⟩
  have hsucc : ∃ out, playWeek teams
      (fun nm => (cur.findIdx fun t => t.id == nm) + 1) r w
      (chunkPairs (r.shuffle w)) = some out := by
    unfold playWeek
    apply foldlM_playMatch_some
    intro jm hjm
    have hjm2 : jm.2 ∈ chunkPairs (r.shuffle w) := by
      have h1 : jm.2 ∈ (chunkPairs (r.shuffle w)).enum.map Prod.snd :=
        List.mem_map_of_mem _ hjm
      rwa [List.enum_map_snd] at h1
    obtain ⟨h1, h2⟩ := hendmem _ hjm2
    rw [htlen]
    exact ⟨h1, h2⟩
  obtain ⟨out, hout⟩ := hsucc
  have hout' := hout
  unfold playWeek at hout'
  have hspec := foldlM_playMatch_spec _ r w _ teams out hout'
  have hids : out.map Team.id = natIds N := hspec.2.1.trans hinv.tids
  have htrue : out.map Team.true_rank = intRange N := hspec.2.2.1.trans hinv.ttrue
  have holen : out.length = N := hspec.1.trans htlen
  have hptsrel := foldlM_playMatch_points _ r w _ teams out
    (by rwa [List.enum_map_snd]) hout'
  have hopts : ∀ t ∈ out, 0 ≤ t.season_points := by
    intro u hu
    obtain ⟨k, hk, hku⟩ := List.mem_iff_getElem.1 hu
    have hkt : k < teams.length := by omega
    have h1 := hptsrel k (teams.get ⟨k, hkt⟩) u (List.getElem?_eq_getElem hkt)
      (by rw [List.getElem?_eq_getElem hk, hku])
    have h0 := hinv.tpts _ (teams.get_mem k hkt)
    omega
  -- the three stable sorts of `sorted(...)` + `break_ties`
  have hcnd : (cur.map Team.id).Nodup := by
    have hp : (cur.map Team.id).Perm (natIds N) := by
      rw [← hinv.tids]
      exact hinv.cperm.map Team.id
    exact hp.nodup_iff.2 (natIds_nodup N)
  have hs2eq : break_ties (out.insertionSort ptsDescRel) cur =
      ((out.insertionSort ptsDescRel).insertionSort
        (idxLeRel fun nm => cur.findIdx fun t => t.id == nm)).insertionSort ptsDescRel := rfl
  have hs1perm : (((out.insertionSort ptsDescRel).insertionSort
      (idxLeRel fun nm => cur.findIdx fun t => t.id == nm))).Perm out :=
    (List.perm_insertionSort (idxLeRel _) _).trans (List.perm_insertionSort ptsDescRel out)
  have hp20 : (break_ties (out.insertionSort ptsDescRel) cur).Perm out := by
    rw [hs2eq]
    exact (List.perm_insertionSort ptsDescRel _).trans hs1perm
  have hs2idsp : ((break_ties (out.insertionSort ptsDescRel) cur).map Team.id).Perm
      (natIds N) := by
    rw [← hids]
    exact hp20.map Team.id
  have hs2nd : ((break_ties (out.insertionSort ptsDescRel) cur).map Team.id).Nodup :=
    hs2idsp.nodup_iff.2 (natIds_nodup N)
  have hs2len : (break_ties (out.insertionSort ptsDescRel) cur).length = N :=
    hp20.length_eq.trans holen
  -- the step equation
  have hstep : step N r w teams cur =
      some (syncRanks out (assignRanks (break_ties (out.insertionSort ptsDescRel) cur)),
        assignRanks (break_ties (out.insertionSort ptsDescRel) cur)) := by
    unfold step
    rw [hpair]
    simp only [hout]
  -- the invariant for the next week
  have hg : ∀ (t : Team) (c : Int), ({ t with cfp_rank := c } : Team).id = t.id :=
    fun t c => rfl
  have hinv' : Inv N (syncRanks out (assignRanks (break_ties
      (out.insertionSort ptsDescRel) cur)))
      (assignRanks (break_ties (out.insertionSort ptsDescRel) cur)) := by
    refine ⟨?_, ?_, ?_, ?_, ?_⟩
    · rw [syncRanks_map_field Team.id (fun t c => rfl)]
      exact hids
    · rw [syncRanks_map_field Team.true_rank (fun t c => rfl)]
      exact htrue
    · intro t ht
      unfold syncRanks at ht
      obtain ⟨t0, ht0, rfl⟩ := List.mem_map.1 ht
      have h0 := hopts t0 ht0
      cases (assignRanks (break_ties (out.insertionSort ptsDescRel) cur)).find?
          fun u => u.id == t0.id with
      | none => exact h0
      | some u => exact h0
    · exact syncRanks_perm hs2nd hp20
    · rw [assignRanks_map_cfp, hs2len]
  -- the Adj relation between `cur` and the new snapshot
  have hadj : Adj cur (assignRanks (break_ties (out.insertionSort ptsDescRel) cur)) := by
    constructor
    · -- tie-break law via the two stable sorts
      have hs1sorted : ((out.insertionSort ptsDescRel).insertionSort
          (idxLeRel fun nm => cur.findIdx fun t => t.id == nm)).Pairwise
          (idxLeRel fun nm => cur.findIdx fun t => t.id == nm) :=
        List.sorted_insertionSort _ _
      refine tiebreak_of_sorts (N := N) hinv.ccfp hs2nd ?_ hs1sorted ?_ ?_
      · intro x hx
        rw [hs2eq] at hx
        rwa [List.mem_insertionSort] at hx
      · intro x y hxy hsub
        rw [hs2eq]
        exact List.pair_sublist_insertionSort hxy hsub
      · intro t ht
        have h1 : t.id ∈ (break_ties (out.insertionSort ptsDescRel) cur).map Team.id :=
          List.mem_map_of_mem _ ht
        have hp : ((break_ties (out.insertionSort ptsDescRel) cur).map Team.id).Perm
            (cur.map Team.id) :=
          hs2idsp.trans (by rw [← hinv.tids]; exact (hinv.cperm.map Team.id).symm)
        obtain ⟨u, hu, hid⟩ := List.mem_map.1 (hp.mem_iff.1 h1)
        exact ⟨u, hu, hid⟩
    · -- bounded non-negative points growth
      intro nm
      have h1 : pointsOf cur nm = pointsOf teams nm := pointsOf_perm hinv.cperm hcnd nm
      have h4 : pointsOf (assignRanks (break_ties (out.insertionSort ptsDescRel) cur)) nm =
          pointsOf out nm := by
        rw [assignRanks_eq_map_posRank hs2nd]
        have h5 := pointsOf_map (l := break_ties (out.insertionSort ptsDescRel) cur)
          (F := fun t => { t with cfp_rank :=
            (((break_ties (out.insertionSort ptsDescRel) cur).findIdx
              fun u => u.id == t.id : Nat) : Int) + 1 })
          (fun t => rfl) (fun t => rfl) nm
        rw [h5]
        exact pointsOf_perm hp20 (hs2idsp.nodup_iff.2 (natIds_nodup N)) nm
      have h23 : pointsOf teams nm ≤ pointsOf out nm ∧
          pointsOf out nm ≤ pointsOf teams nm + 5 := by
        have hfi : (teams.findIdx fun u => u.id == nm) = out.findIdx fun u => u.id == nm :=
          findIdx_id_eq_of_map_id_eq (hspec.2.1.symm) nm
        have hol : out.length = teams.length := hspec.1
        by_cases hlt : (teams.findIdx fun u => u.id == nm) < teams.length
        · have hlt2 : (out.findIdx fun u => u.id == nm) < out.length := by omega
          have hpt : pointsOf teams nm =
              (teams.get ⟨teams.findIdx fun u => u.id == nm, hlt⟩).season_points := by
            unfold pointsOf
            rw [find?_eq_getElem?_findIdx, List.getElem?_eq_getElem hlt]
            rfl
          have hpo : pointsOf out nm =
              (out.get ⟨out.findIdx fun u => u.id == nm, hlt2⟩).season_points := by
            unfold pointsOf
            rw [find?_eq_getElem?_findIdx, List.getElem?_eq_getElem hlt2]
            rfl
          
          have hrel := hptsrel (teams.findIdx fun u => u.id == nm)
            (teams.get ⟨_, hlt⟩) (out.get ⟨_, hlt2⟩)
            (List.getElem?_eq_getElem hlt)
            (by rw [hfi]; exact List.getElem?_eq_getElem hlt2)
          rw [hpt, hpo]
          exact ⟨hrel.2.1, hrel.2.2⟩
        · have hlt2 : ¬ (out.findIdx fun u => u.id == nm) < out.length := by omega
          have hpt : pointsOf teams nm = 0 := by
            unfold pointsOf
            rw [find?_eq_getElem?_findIdx, List.getElem?_eq_none (by omega)]
          have hpo : pointsOf out nm = 0 := by
            unfold pointsOf
            rw [find?_eq_getElem?_findIdx, List.getElem?_eq_none (by omega)]
          rw [hpt, hpo]
          omega
      rw [h1, h4]
      exact h23
  exact ⟨_, _, hstep, hinv', hadj⟩

/-- C7: under the inverted preseason policy the week-0 snapshot gives every
team `committee_rank = N - true_rank + 1`, for every stream (seed). -/
theorem week0_inverted_preseason (N W : Nat) (r : Rand) (snaps : List (List Team))
    (hs : simulate_single_season N W r = some snaps) (t : Team)
    (ht : t ∈ snaps.headD []) : t.cfp_rank = (N : Int) - t.true_rank + 1 := by
  simp only [simulate_single_season] at hs
  rcases hrest : simWeeks N r W 1 (generate_teams N)
      ((generate_teams N).insertionSort cfpLeRel) with _ | rest
  · rw [hrest] at hs; cases hs
  · rw [hrest] at hs
    cases hs
    rw [List.headD_cons, List.mem_insertionSort] at ht
    simp only [generate_teams, List.mem_map, List.mem_range] at ht
    obtain ⟨i, hi, rfl⟩ := ht
    simp only []

/-- Witness for C7 at `N = 4`, `W = 1`: the best true team starts ranked
dead last (`cfp_rank 4`), the worst true team first. -/
theorem week0_inverted_preseason_witness :
    (⟨4, 4, 1, 0⟩ : Team).cfp_rank = (4 : Int) - (⟨4, 4, 1, 0⟩ : Team).true_rank + 1 :=
  week0_inverted_preseason 4 1 (orderedRand 4)
    [[⟨4, 4, 1, 0⟩, ⟨3, 3, 2, 0⟩, ⟨2, 2, 3, 0⟩, ⟨1, 1, 4, 0⟩],
     [⟨3, 3, 1, 5⟩, ⟨1, 1, 2, 5⟩, ⟨4, 4, 3, 2⟩, ⟨2, 2, 4, 2⟩]]
    (by decide) ⟨4, 4, 1, 0⟩ (by decide)

/-- `generate_teams` writes ids `1..N`. -/
theorem generate_teams_map_id (N : Nat) :
    (generate_teams N).map Team.id = natIds N := by
  unfold generate_teams natIds
  rw [List.map_map]
  rfl

/-- `generate_teams` writes true ranks `1..N`. -/
theorem generate_teams_map_true (N : Nat) :
    (generate_teams N).map Team.true_rank = intRange N := by
  unfold generate_teams intRange
  rw [List.map_map]
  rfl

/-- `generate_teams` writes the inverted committee ranks `N..1`. -/
theorem generate_teams_map_cfp (N : Nat) :
    (generate_teams N).map Team.cfp_rank = (intRange N).reverse := by
  apply List.ext_getElem?
  intro k
  by_cases hk : k < N
  · have h1 : ((generate_teams N).map Team.cfp_rank)[k]? =
        some ((N : Int) - ((k : Int) + 1) + 1) := by
      unfold generate_teams
      rw [List.map_map, List.getElem?_map, List.getElem?_range hk]
      rfl
    have h2 : ((intRange N).reverse)[k]? = some (((N - 1 - k : Nat) : Int) + 1) := by
      rw [List.getElem?_reverse (by rw [intRange_length]; exact hk), intRange_length]
      exact intRange_getElem? (by omega)
    rw [h1, h2]
    congr 1
    omega
  · have hlen1 : ((generate_teams N).map Team.cfp_rank).length ≤ k := by
      simp only [List.length_map, generate_teams, List.length_range]
      omega
    have hlen2 : ((intRange N).reverse).length ≤ k := by
      rw [List.length_reverse, intRange_length]
      omega
    rw [List.getElem?_eq_none hlen1, List.getElem?_eq_none hlen2]

/-- The preseason state — the freshly generated master list together with its
preseason committee sort — satisfies the week-to-week invariant. -/
theorem init_inv (N : Nat) :
    Inv N (generate_teams N) ((generate_teams N).insertionSort cfpLeRel) := by
  have hcfp := generate_teams_map_cfp N
  refine ⟨generate_teams_map_id N, generate_teams_map_true N, ?_,
    List.perm_insertionSort _ _, ?_⟩
  · intro t ht
    unfold generate_teams at ht
    obtain ⟨i, _, rfl⟩ := List.mem_map.1 ht
    exact le_refl 0
  · have hperm : (((generate_teams N).insertionSort cfpLeRel).map Team.cfp_rank).Perm
        (intRange N) := by
      have h1 := (List.perm_insertionSort cfpLeRel (generate_teams N)).map Team.cfp_rank
      rw [hcfp] at h1
      exact h1.trans (List.reverse_perm _)
    have hs2 : (((generate_teams N).insertionSort cfpLeRel).map Team.cfp_rank).Pairwise
        (fun a b : Int => a ≤ b) := by
      refine List.Pairwise.map _ ?_ (List.sorted_insertionSort cfpLeRel (generate_teams N))
      intro a b h
      exact h
    have hsI : (intRange N).Pairwise (fun a b : Int => a ≤ b) := by
      unfold intRange
      refine List.Pairwise.map _ ?_ (List.pairwise_lt_range N)
      intro a b h
      omega
    exact List.eq_of_perm_of_sorted hperm hs2 hsI

/-- The per-snapshot properties guaranteed for every weekly snapshot: the
committee ranks read exactly `1..N`, the true ranks and the ids are
permutations of `1..N`, and all recorded season points are non-negative. -/
def SnapOk (N : Nat) (s : List Team) : Prop :=
  s.map Team.cfp_rank = intRange N ∧ (s.map Team.true_rank).Perm (intRange N) ∧
    (s.map Team.id).Perm (natIds N) ∧ ∀ t ∈ s, 0 ≤ t.season_points

/-- A committee order satisfying the invariant is a valid snapshot. -/
theorem snapOk_of_inv {N : Nat} {teams cur : List Team} (hinv : Inv N teams cur) :
    SnapOk N cur := by
  refine ⟨hinv.ccfp, ?_, ?_, ?_⟩
  · rw [← hinv.ttrue]
    exact hinv.cperm.map Team.true_rank
  · rw [← hinv.tids]
    exact hinv.cperm.map Team.id
  · intro t ht
    exact hinv.tpts t (hinv.cperm.mem_iff.1 ht)

/-- The weekly loop, started from any state satisfying the invariant,
succeeds, produces only valid snapshots, and consecutive snapshots (starting
from the incoming order) are related by `Adj`. -/
theorem simWeeks_spec {N : Nat} {r : Rand} (hN : N % 2 = 0)
    (hsh : ∀ w, (r.shuffle w).Perm (List.range N)) :
    ∀ (rem w : Nat) (teams cur : List Team), Inv N teams cur →
      ∃ snaps, simWeeks N r rem w teams cur = some snaps ∧
        List.Chain' Adj (cur :: snaps) ∧ ∀ s ∈ snaps, SnapOk N s := by
  intro rem
  induction rem with
  | zero =>
    intro w teams cur hinv
    exact ⟨[], rfl, List.chain'_singleton _, by intro s hs; cases hs⟩
  | succ n ih =>
    intro w teams cur hinv
    obtain ⟨teams2, newOrder, hstep, hinv2, hadj⟩ := step_spec hN (hsh w) hinv
    obtain ⟨rest, hrest, hchain, hok⟩ := ih (w + 1) teams2 newOrder hinv2
    refine ⟨newOrder :: rest, ?_, ?_, ?_⟩
    · simp only [simWeeks, hstep, hrest]
    · exact List.chain'_cons.2 ⟨hadj, hchain⟩
    · intro s hs
      rcases List.mem_cons.1 hs with rfl | hs2
      · exact snapOk_of_inv hinv2
      · exact hok s hs2

/-- A season with an even number of teams succeeds, returns `W + 1` valid
snapshots, and consecutive snapshots are related by `Adj`. -/
theorem simulate_spec {N W : Nat} {r : Rand} (hN : N % 2 = 0)
    (hsh : ∀ w, (r.shuffle w).Perm (List.range N)) :
    ∃ snaps, simulate_single_season N W r = some snaps ∧
      List.Chain' Adj snaps ∧ (∀ s ∈ snaps, SnapOk N s) ∧ snaps.length = W + 1 := by
  obtain ⟨rest, hrest, hchain, hok⟩ := simWeeks_spec hN hsh W 1 (generate_teams N)
    ((generate_teams N).insertionSort cfpLeRel) (init_inv N)
  refine ⟨(generate_teams N).insertionSort cfpLeRel :: rest, ?_, hchain, ?_, ?_⟩
  · simp only [simulate_single_season, hrest]
  · intro s hs
    rcases List.mem_cons.1 hs with rfl | hs2
    · exact snapOk_of_inv (init_inv N)
    · exact hok s hs2
  · rw [List.length_cons, simWeeks_length _ _ _ _ _ _ _ hrest]

/-- C5: for every even `num_teams`, every `num_weeks`, every random stream
whose shuffles permute the team indices, and every weekly snapshot returned
by `simulate_single_season`: the committee ranks of the snapshot and its true
ranks are each a permutation of `1..N` — no duplicate, no missing value. -/
theorem snapshot_ranks_permutation (N W : Nat) (r : Rand)
    (hN : N % 2 = 0) (hsh : ∀ w, (r.shuffle w).Perm (List.range N))
    (snaps : List (List Team)) (hs : simulate_single_season N W r = some snaps)
    (s : List Team) (hmem : s ∈ snaps) :
    (s.map Team.cfp_rank).Perm (intRange N) ∧
      (s.map Team.true_rank).Perm (intRange N) := by
  obtain ⟨snaps2, hs2, _, hok, _⟩ := simulate_spec hN hsh
  rw [hs] at hs2
  cases hs2
  obtain ⟨hcfp, htrue, _, _⟩ := hok s hmem
  rw [hcfp]
  exact ⟨List.Perm.refl _, htrue⟩

/-- Witness for C5 at `N = 2`, `W = 1` with the ordered random stream, at the
week-1 snapshot. -/
theorem snapshot_ranks_permutation_witness :
    (([⟨1, 1, 1, 5⟩, ⟨2, 2, 2, 2⟩] : List Team).map Team.cfp_rank).Perm (intRange 2) ∧
      (([⟨1, 1, 1, 5⟩, ⟨2, 2, 2, 2⟩] : List Team).map Team.true_rank).Perm (intRange 2) :=
  snapshot_ranks_permutation 2 1 (orderedRand 2) (by decide) (fun _ => List.Perm.refl _)
    [[⟨2, 2, 1, 0⟩, ⟨1, 1, 2, 0⟩], [⟨1, 1, 1, 5⟩, ⟨2, 2, 2, 2⟩]] (by decide)
    [⟨1, 1, 1, 5⟩, ⟨2, 2, 2, 2⟩] (by decide)

/-- C4: the tie-break law — in every season with an even number of teams, if
two teams of the week-`w+1` snapshot have equal season points, the one whose
committee rank in the week-`w` snapshot was better (numerically smaller)
receives the better (numerically smaller) new committee rank. -/
theorem tiebreak_law (N W : Nat) (r : Rand)
    (hN : N % 2 = 0) (hsh : ∀ w, (r.shuffle w).Perm (List.range N))
    (snaps : List (List Team)) (hs : simulate_single_season N W r = some snaps)
    (w : Nat) (hw : w + 1 < snaps.length) (a b : Team)
    (ha : a ∈ snaps.getD (w + 1) []) (hb : b ∈ snaps.getD (w + 1) [])
    (hpts : a.season_points = b.season_points)
    (hrank : rankOf (snaps.getD w []) a.id < rankOf (snaps.getD w []) b.id) :
    a.cfp_rank < b.cfp_rank := by
  obtain ⟨snaps2, hs2, hchain, _, _⟩ := simulate_spec hN hsh
  rw [hs] at hs2
  cases hs2
  have hgw : snaps.getD w [] = snaps.get ⟨w, by omega⟩ := by
    rw [List.getD_eq_getElem?_getD, List.getElem?_eq_getElem (by omega : w < snaps.length)]
    rfl
  have hgw1 : snaps.getD (w + 1) [] = snaps.get ⟨w + 1, hw⟩ := by
    rw [List.getD_eq_getElem?_getD, List.getElem?_eq_getElem hw]
    rfl
  have hadj : Adj (snaps.getD w []) (snaps.getD (w + 1) []) := by
    rw [hgw, hgw1]
    exact List.chain'_iff_get.1 hchain w (by omega)
  exact hadj.1 a ha b hb hpts hrank

/-- Witness for C4 at `N = 4`, `W = 1` with the ordered random stream: teams
3 and 1 both end week 1 on 5 points; team 3 was ranked 2nd and team 1 was
ranked 4th in week 0, so team 3 takes the better new rank (1 < 2). -/
theorem tiebreak_law_witness :
    (⟨3, 3, 1, 5⟩ : Team).cfp_rank < (⟨1, 1, 2, 5⟩ : Team).cfp_rank :=
  tiebreak_law 4 1 (orderedRand 4) (by decide) (fun _ => List.Perm.refl _)
    [[⟨4, 4, 1, 0⟩, ⟨3, 3, 2, 0⟩, ⟨2, 2, 3, 0⟩, ⟨1, 1, 4, 0⟩],
      [⟨3, 3, 1, 5⟩, ⟨1, 1, 2, 5⟩, ⟨4, 4, 3, 2⟩, ⟨2, 2, 4, 2⟩]] (by decide)
    0 (by decide) ⟨3, 3, 1, 5⟩ ⟨1, 1, 2, 5⟩ (by decide) (by decide) (by decide) (by decide)

/-- C10: in every matchup both awards lie in `{0, ..., 5}` and the winner's
award is at least the loser's; consequently, in every season with an even
number of teams, each team's recorded season points are non-negative and
non-decreasing from week to week, gaining at most 5 points per week. -/
theorem points_awards_and_growth (N W : Nat) (r : Rand) (ra rb : Int) (nm : Nat)
    (hN : N % 2 = 0) (hsh : ∀ w, (r.shuffle w).Perm (List.range N))
    (snaps : List (List Team)) (hs : simulate_single_season N W r = some snaps)
    (w : Nat) (hw : w + 1 < snaps.length) :
    (0 ≤ determine_cfp_points ra rb true ∧ determine_cfp_points ra rb true ≤ 5) ∧
    (0 ≤ determine_cfp_points rb ra false ∧ determine_cfp_points rb ra false ≤ 5) ∧
    determine_cfp_points rb ra false ≤ determine_cfp_points ra rb true ∧
    0 ≤ pointsOf (snaps.getD w []) nm ∧
    pointsOf (snaps.getD w []) nm ≤ pointsOf (snaps.getD (w + 1) []) nm ∧
    pointsOf (snaps.getD (w + 1) []) nm ≤ pointsOf (snaps.getD w []) nm + 5 := by
  obtain ⟨snaps2, hs2, hchain, hok, _⟩ := simulate_spec hN hsh
  rw [hs] at hs2
  cases hs2
  have hwlt : w < snaps.length := by omega
  have hgw : snaps.getD w [] = snaps.get ⟨w, hwlt⟩ := by
    rw [List.getD_eq_getElem?_getD, List.getElem?_eq_getElem hwlt]
    rfl
  have hgw1 : snaps.getD (w + 1) [] = snaps.get ⟨w + 1, hw⟩ := by
    rw [List.getD_eq_getElem?_getD, List.getElem?_eq_getElem hw]
    rfl
  have hadj : Adj (snaps.getD w []) (snaps.getD (w + 1) []) := by
    rw [hgw, hgw1]
    exact List.chain'_iff_get.1 hchain w (by omega)
  have hnn : 0 ≤ pointsOf (snaps.getD w []) nm := by
    obtain ⟨_, _, _, hp⟩ := hok _ (snaps.get_mem w hwlt)
    rw [hgw]
    exact pointsOf_nonneg hp nm
  refine ⟨determine_cfp_points_bounds ra rb true, determine_cfp_points_bounds rb ra false,
    ?_, hnn, (hadj.2 nm).1, (hadj.2 nm).2⟩
  simp only [determine_cfp_points, if_true, Bool.false_eq_true, if_false]
  split_ifs <;> omega

/-- Witness for C10 at `N = 2`, `W = 1`, ranks `ra = 1`, `rb = 2`, team 1. -/
theorem points_awards_and_growth_witness :
    (0 ≤ determine_cfp_points 1 2 true ∧ determine_cfp_points 1 2 true ≤ 5) ∧
    (0 ≤ determine_cfp_points 2 1 false ∧ determine_cfp_points 2 1 false ≤ 5) ∧
    determine_cfp_points 2 1 false ≤ determine_cfp_points 1 2 true ∧
    0 ≤ pointsOf (([[⟨2, 2, 1, 0⟩, ⟨1, 1, 2, 0⟩], [⟨1, 1, 1, 5⟩, ⟨2, 2, 2, 2⟩]] :
      List (List Team)).getD 0 []) 1 ∧
    pointsOf (([[⟨2, 2, 1, 0⟩, ⟨1, 1, 2, 0⟩], [⟨1, 1, 1, 5⟩, ⟨2, 2, 2, 2⟩]] :
      List (List Team)).getD 0 []) 1 ≤
      pointsOf (([[⟨2, 2, 1, 0⟩, ⟨1, 1, 2, 0⟩], [⟨1, 1, 1, 5⟩, ⟨2, 2, 2, 2⟩]] :
        List (List Team)).getD 1 []) 1 ∧
    pointsOf (([[⟨2, 2, 1, 0⟩, ⟨1, 1, 2, 0⟩], [⟨1, 1, 1, 5⟩, ⟨2, 2, 2, 2⟩]] :
      List (List Team)).getD 1 []) 1 ≤
      pointsOf (([[⟨2, 2, 1, 0⟩, ⟨1, 1, 2, 0⟩], [⟨1, 1, 1, 5⟩, ⟨2, 2, 2, 2⟩]] :
        List (List Team)).getD 0 []) 1 + 5 :=
  points_awards_and_growth 2 1 (orderedRand 2) 1 2 1 (by decide) (fun _ => List.Perm.refl _)
    [[⟨2, 2, 1, 0⟩, ⟨1, 1, 2, 0⟩], [⟨1, 1, 1, 5⟩, ⟨2, 2, 2, 2⟩]] (by decide) 0 (by decide)

/-- A team of the `HarsherCommittee` file before preseason assignment: its
`cfp_rank` starts as Python's `None`. -/
structure HTeam where
  id : Nat
  true_rank : Int
  cfp_rank : Option Int
  season_points : Int
deriving DecidableEq, Repr

/-- `generate_teams` of the `HarsherCommittee` file: true ranks `1..N`, no
preseason committee rank yet. -/
def hgenerate_teams (num_teams : Nat) : List HTeam :=
  (List.range num_teams).map fun i =>
    { id := i + 1
      true_rank := (i : Int) + 1
      cfp_rank := none
      season_points := 0 }

/-- The sort key `lambda t: t['true_rank']`. -/
def htrueLeRel (a b : HTeam) : Prop := a.true_rank ≤ b.true_rank

instance : DecidableRel htrueLeRel := fun a b => inferInstanceAs (Decidable (_ ≤ _))

instance : IsTotal HTeam htrueLeRel := ⟨fun a b => le_total a.true_rank b.true_rank⟩

instance : IsTrans HTeam htrueLeRel := ⟨fun _ _ _ h h' => le_trans h h'⟩

/-- The sort key `lambda t: t['cfp_rank']` of the final `sorted`; at that
point every `cfp_rank` holds an integer, read out of the `Option`. -/
def hcfpLeRel (a b : HTeam) : Prop := a.cfp_rank.getD 0 ≤ b.cfp_rank.getD 0

instance : DecidableRel hcfpLeRel := fun a b => inferInstanceAs (Decidable (_ ≤ _))

instance : IsTotal HTeam hcfpLeRel := ⟨fun a b => le_total _ _⟩

instance : IsTrans HTeam hcfpLeRel := ⟨fun _ _ _ h h' => le_trans h h'⟩

/-- `for i, team in enumerate(preseason_list): team['cfp_rank'] = i + 1`. -/
def hassign (l : List HTeam) : List HTeam :=
  l.enum.map fun p => { p.2 with cfp_rank := some ((p.1 : Int) + 1) }

/-- `assign_preseason_tiers` of the `HarsherCommittee` file, with the three
in-place `random.shuffle` calls passed in as the rearrangement oracle `sh`
(one call per tier): sort by true rank, slice the tiers `[:34]`, `[34:84]`,
`[84:]`, shuffle each tier, concatenate, assign `cfp_rank = position + 1`,
and return the list sorted by `cfp_rank`. -/
def assign_preseason_tiers (teams : List HTeam)
    (sh : Nat → List HTeam → List HTeam) : List HTeam :=
  let sorted_by_true := teams.insertionSort htrueLeRel
  let tier1 := sh 1 (sorted_by_true.take 34)
  let tier2 := sh 2 ((sorted_by_true.drop 34).take 50)
  let tier3 := sh 3 (sorted_by_true.drop 84)
  let preseason_list := tier1 ++ tier2 ++ tier3
  (hassign preseason_list).insertionSort hcfpLeRel

theorem hgenerate_length (n : Nat) : (hgenerate_teams n).length = n := by
  unfold hgenerate_teams
  rw [List.length_map, List.length_range]

/-- The harsher file's master list is already sorted by true rank, so the
initial sort of `assign_preseason_tiers` is the identity on it. -/
theorem hgenerate_sorted (n : Nat) :
    (hgenerate_teams n).insertionSort htrueLeRel = hgenerate_teams n := by
  apply List.Sorted.insertionSort_eq
  unfold hgenerate_teams
  refine List.Pairwise.map _ ?_ (List.pairwise_lt_range n)
  intro a b h
  show ((a : Int) + 1) ≤ (b : Int) + 1
  omega

/-- A member of the slice `[a : a + k]` of the harsher master list has true
rank in `a + 1 .. a + k`. -/
theorem hgenerate_slice_true {n a k : Nat} {t : HTeam}
    (ht : t ∈ ((hgenerate_teams n).drop a).take k) :
    (a : Int) + 1 ≤ t.true_rank ∧ t.true_rank ≤ (a : Int) + (k : Int) := by
  obtain ⟨j, hj, hget⟩ := List.mem_iff_getElem.1 ht
  have hjk : j < k := by
    have h0 := hj
    rw [List.length_take] at h0
    omega
  have hajn : a + j < n := by
    have h0 := hj
    rw [List.length_take, List.length_drop, hgenerate_length] at h0
    omega
  have h2 : (((hgenerate_teams n).drop a).take k)[j]? = some t := by
    rw [List.getElem?_eq_getElem hj, hget]
  rw [List.getElem?_take, if_pos hjk, List.getElem?_drop] at h2
  have h3 : (hgenerate_teams n)[a + j]? = some
      (⟨a + j + 1, ((a + j : Nat) : Int) + 1, none, 0⟩ : HTeam) := by
    unfold hgenerate_teams
    rw [List.getElem?_map, List.getElem?_range hajn]
    rfl
  rw [h3] at h2
  obtain rfl := Option.some.inj h2
  refine ⟨?_, ?_⟩
  · show (a : Int) + 1 ≤ ((a + j : Nat) : Int) + 1
    omega
  · show ((a + j : Nat) : Int) + 1 ≤ (a : Int) + (k : Int)
    omega

/-- A member of the suffix `[a:]` of the harsher master list has true rank in
`a + 1 .. n`. -/
theorem hgenerate_drop_true {n a : Nat} {t : HTeam}
    (ht : t ∈ (hgenerate_teams n).drop a) :
    (a : Int) + 1 ≤ t.true_rank ∧ t.true_rank ≤ (n : Int) := by
  obtain ⟨j, hj, hget⟩ := List.mem_iff_getElem.1 ht
  have hajn : a + j < n := by
    have h0 := hj
    rw [List.length_drop, hgenerate_length] at h0
    omega
  have h2 : ((hgenerate_teams n).drop a)[j]? = some t := by
    rw [List.getElem?_eq_getElem hj, hget]
  rw [List.getElem?_drop] at h2
  have h3 : (hgenerate_teams n)[a + j]? = some
      (⟨a + j + 1, ((a + j : Nat) : Int) + 1, none, 0⟩ : HTeam) := by
    unfold hgenerate_teams
    rw [List.getElem?_map, List.getElem?_range hajn]
    rfl
  rw [h3] at h2
  obtain rfl := Option.some.inj h2
  refine ⟨?_, ?_⟩
  · show (a : Int) + 1 ≤ ((a + j : Nat) : Int) + 1
    omega
  · show ((a + j : Nat) : Int) + 1 ≤ (n : Int)
    omega

theorem hassign_length (l : List HTeam) : (hassign l).length = l.length := by
  unfold hassign
  rw [List.length_map, List.enum_length]

/-- The element of `hassign l` at position `i`. -/
theorem hassign_getElem? {l : List HTeam} {i : Nat} (h : i < l.length) :
    (hassign l)[i]? = some { l.get ⟨i, h⟩ with cfp_rank := some ((i : Int) + 1) } := by
  unfold hassign
  rw [List.getElem?_map]
  have he : l.enum[i]? = some (i, l.get ⟨i, h⟩) := by
    rw [List.getElem?_eq_getElem (by rw [List.enum_length]; exact h)]
    rw [List.getElem_enum]
    rfl
  rw [he]
  rfl

/-- `hassign` writes exactly the committee ranks `1..len` in order. -/
theorem hassign_map_cfp (l : List HTeam) :
    (hassign l).map HTeam.cfp_rank = (intRange l.length).map some := by
  apply List.ext_getElem?
  intro i
  by_cases h : i < l.length
  · rw [List.getElem?_map, hassign_getElem? h, List.getElem?_map, intRange_getElem? h]
    rfl
  · rw [List.getElem?_eq_none, List.getElem?_eq_none]
    · rw [List.length_map, intRange_length]; omega
    · rw [List.length_map, hassign_length]; omega

/-- The freshly assigned ranks are already sorted, so the final sort of
`assign_preseason_tiers` is the identity. -/
theorem hassign_sorted (l : List HTeam) : (hassign l).Pairwise hcfpLeRel := by
  rw [List.pairwise_iff_getElem]
  intro i j hi hj hij
  have hi2 : i < l.length := by rw [hassign_length] at hi; exact hi
  have hj2 : j < l.length := by rw [hassign_length] at hj; exact hj
  have hgi : (hassign l)[i] = { l.get ⟨i, hi2⟩ with cfp_rank := some ((i : Int) + 1) } := by
    have h0 := hassign_getElem? hi2
    rw [List.getElem?_eq_getElem hi] at h0
    exact Option.some.inj h0
  have hgj : (hassign l)[j] = { l.get ⟨j, hj2⟩ with cfp_rank := some ((j : Int) + 1) } := by
    have h0 := hassign_getElem? hj2
    rw [List.getElem?_eq_getElem hj] at h0
    exact Option.some.inj h0
  rw [hgi, hgj]
  show ((i : Int) + 1) ≤ (j : Int) + 1
  omega

/-- `assign_preseason_tiers` unfolded: the final sort is the identity on the
rank-assigned concatenation of the three shuffled tiers. -/
theorem assign_preseason_tiers_eq (teams : List HTeam)
    (sh : Nat → List HTeam → List HTeam) :
    assign_preseason_tiers teams sh =
      hassign (sh 1 ((teams.insertionSort htrueLeRel).take 34) ++
        sh 2 (((teams.insertionSort htrueLeRel).drop 34).take 50) ++
        sh 3 ((teams.insertionSort htrueLeRel).drop 84)) := by
  unfold assign_preseason_tiers
  exact List.Sorted.insertionSort_eq (hassign_sorted _)

/-- Tier-correct placement on a rank-assigned concatenation of three blocks
of sizes 34, 50 and 50 whose members carry the corresponding true ranks. -/
theorem hassign_tiers_mem {A B C : List HTeam} {t : HTeam}
    (hA : A.length = 34) (hB : B.length = 50) (hC : C.length = 50)
    (hAt : ∀ u ∈ A, 1 ≤ u.true_rank ∧ u.true_rank ≤ 34)
    (hBt : ∀ u ∈ B, 35 ≤ u.true_rank ∧ u.true_rank ≤ 84)
    (hCt : ∀ u ∈ C, 85 ≤ u.true_rank ∧ u.true_rank ≤ 134)
    (ht : t ∈ hassign (A ++ B ++ C)) :
    (1 ≤ t.true_rank ∧ t.true_rank ≤ 34 →
      1 ≤ t.cfp_rank.getD 0 ∧ t.cfp_rank.getD 0 ≤ 34) ∧
    (35 ≤ t.true_rank ∧ t.true_rank ≤ 84 →
      35 ≤ t.cfp_rank.getD 0 ∧ t.cfp_rank.getD 0 ≤ 84) ∧
    (85 ≤ t.true_rank ∧ t.true_rank ≤ 134 →
      85 ≤ t.cfp_rank.getD 0 ∧ t.cfp_rank.getD 0 ≤ 134) := by
  obtain ⟨i, hi, hget⟩ := List.mem_iff_getElem.1 ht
  have hi2 : i < (A ++ B ++ C).length := by rw [hassign_length] at hi; exact hi
  have hi134 : i < 134 := by
    have h0 := hi2
    rw [List.length_append, List.length_append, hA, hB, hC] at h0
    omega
  have hval : t = { (A ++ B ++ C).get ⟨i, hi2⟩ with
      cfp_rank := some ((i : Int) + 1) } := by
    have h0 := hassign_getElem? hi2
    have h1 : (hassign (A ++ B ++ C))[i]? = some t := by
      rw [List.getElem?_eq_getElem hi, hget]
    exact Option.some.inj (h1.symm.trans h0)
  have hcfp : t.cfp_rank.getD 0 = (i : Int) + 1 := by rw [hval]; rfl
  have htt : t.true_rank = ((A ++ B ++ C).get ⟨i, hi2⟩).true_rank := by rw [hval]
  rcases Nat.lt_or_ge i 34 with hc1 | hge34
  · have hiAB : i < (A ++ B).length := by rw [List.length_append, hA, hB]; omega
    have hiA : i < A.length := by omega
    have hu : (A ++ B ++ C).get ⟨i, hi2⟩ = A[i] := by
      show (A ++ B ++ C)[i] = A[i]
      rw [List.getElem_append_left hiAB, List.getElem_append_left hiA]
    have htr := hAt (A[i]) (List.getElem_mem hiA)
    rw [hu] at htt
    refine ⟨?_, ?_, ?_⟩ <;> intro hx <;> constructor <;> omega
  · rcases Nat.lt_or_ge i 84 with hc2 | hge84
    · have hiAB : i < (A ++ B).length := by rw [List.length_append, hA, hB]; omega
      have hiB : i - A.length < B.length := by omega
      have hu : (A ++ B ++ C).get ⟨i, hi2⟩ = B[i - A.length] := by
        show (A ++ B ++ C)[i] = B[i - A.length]
        rw [List.getElem_append_left hiAB, List.getElem_append_right (by omega)]
      have htr := hBt (B[i - A.length]) (List.getElem_mem hiB)
      rw [hu] at htt
      refine ⟨?_, ?_, ?_⟩ <;> intro hx <;> constructor <;> omega
    · have hgeAB : (A ++ B).length ≤ i := by rw [List.length_append, hA, hB]; omega
      have hiC : i - (A ++ B).length < C.length := by
        rw [List.length_append, hA, hB, hC]
        omega
      have hu : (A ++ B ++ C).get ⟨i, hi2⟩ = C[i - (A ++ B).length] := by
        show (A ++ B ++ C)[i] = C[i - (A ++ B).length]
        rw [List.getElem_append_right hgeAB]
      have htr := hCt (C[i - (A ++ B).length]) (List.getElem_mem hiC)
      rw [hu] at htt
      have hlAB : (A ++ B).length = 84 := by rw [List.length_append, hA, hB]
      refine ⟨?_, ?_, ?_⟩ <;> intro hx <;> constructor <;> omega

/-- C8: under the tiered preseason policy with `N = 134`, for every intra-tier
shuffle, the returned week-0 order carries committee ranks `position + 1`
(reading `1..134` down the concatenated tiers), and every team lands inside
its own tier: true rank `1..34` at a committee rank in `1..34`, true rank
`35..84` at `35..84`, true rank `85..134` at `85..134`. -/
theorem tiered_preseason_placement (sh : Nat → List HTeam → List HTeam)
    (hsh : ∀ i l, (sh i l).Perm l) (t : HTeam)
    (ht : t ∈ assign_preseason_tiers (hgenerate_teams 134) sh) :
    ((assign_preseason_tiers (hgenerate_teams 134) sh).map HTeam.cfp_rank =
      (intRange 134).map some) ∧
    (1 ≤ t.true_rank ∧ t.true_rank ≤ 34 →
      1 ≤ t.cfp_rank.getD 0 ∧ t.cfp_rank.getD 0 ≤ 34) ∧
    (35 ≤ t.true_rank ∧ t.true_rank ≤ 84 →
      35 ≤ t.cfp_rank.getD 0 ∧ t.cfp_rank.getD 0 ≤ 84) ∧
    (85 ≤ t.true_rank ∧ t.true_rank ≤ 134 →
      85 ≤ t.cfp_rank.getD 0 ∧ t.cfp_rank.getD 0 ≤ 134) := by
  have heq : assign_preseason_tiers (hgenerate_teams 134) sh =
      hassign (sh 1 ((hgenerate_teams 134).take 34) ++
        sh 2 (((hgenerate_teams 134).drop 34).take 50) ++
        sh 3 ((hgenerate_teams 134).drop 84)) := by
    rw [assign_preseason_tiers_eq, hgenerate_sorted]
  have hl1 : (sh 1 ((hgenerate_teams 134).take 34)).length = 34 := by
    rw [(hsh 1 _).length_eq, List.length_take, hgenerate_length]
    omega
  have hl2 : (sh 2 (((hgenerate_teams 134).drop 34).take 50)).length = 50 := by
    rw [(hsh 2 _).length_eq, List.length_take, List.length_drop, hgenerate_length]
    omega
  have hl3 : (sh 3 ((hgenerate_teams 134).drop 84)).length = 50 := by
    rw [(hsh 3 _).length_eq, List.length_drop, hgenerate_length]
  constructor
  · have hlen : (sh 1 ((hgenerate_teams 134).take 34) ++
        sh 2 (((hgenerate_teams 134).drop 34).take 50) ++
        sh 3 ((hgenerate_teams 134).drop 84)).length = 134 := by
      rw [List.length_append, List.length_append, hl1, hl2, hl3]
    rw [heq, hassign_map_cfp, hlen]
  · rw [heq] at ht
    refine hassign_tiers_mem hl1 hl2 hl3 ?_ ?_ ?_ ht
    · intro u hu
      have hmem2 : u ∈ ((hgenerate_teams 134).drop 0).take 34 := by
        rw [List.drop_zero]
        exact (hsh 1 _).mem_iff.1 hu
      obtain ⟨hb1, hb2⟩ := hgenerate_slice_true hmem2
      constructor <;> omega
    · intro u hu
      obtain ⟨hb1, hb2⟩ := hgenerate_slice_true ((hsh 2 _).mem_iff.1 hu)
      constructor <;> omega
    · intro u hu
      obtain ⟨hb1, hb2⟩ := hgenerate_drop_true ((hsh 3 _).mem_iff.1 hu)
      constructor <;> omega

/-- Witness for C8: the identity shuffle, checked at the top team, which
receives committee rank 1. -/
theorem tiered_preseason_placement_witness :
    ((assign_preseason_tiers (hgenerate_teams 134) (fun _ l => l)).map HTeam.cfp_rank =
      (intRange 134).map some) ∧
    (1 ≤ (⟨1, 1, some 1, 0⟩ : HTeam).true_rank ∧
        (⟨1, 1, some 1, 0⟩ : HTeam).true_rank ≤ 34 →
      1 ≤ (⟨1, 1, some 1, 0⟩ : HTeam).cfp_rank.getD 0 ∧
        (⟨1, 1, some 1, 0⟩ : HTeam).cfp_rank.getD 0 ≤ 34) ∧
    (35 ≤ (⟨1, 1, some 1, 0⟩ : HTeam).true_rank ∧
        (⟨1, 1, some 1, 0⟩ : HTeam).true_rank ≤ 84 →
      35 ≤ (⟨1, 1, some 1, 0⟩ : HTeam).cfp_rank.getD 0 ∧
        (⟨1, 1, some 1, 0⟩ : HTeam).cfp_rank.getD 0 ≤ 84) ∧
    (85 ≤ (⟨1, 1, some 1, 0⟩ : HTeam).true_rank ∧
        (⟨1, 1, some 1, 0⟩ : HTeam).true_rank ≤ 134 →
      85 ≤ (⟨1, 1, some 1, 0⟩ : HTeam).cfp_rank.getD 0 ∧
        (⟨1, 1, some 1, 0⟩ : HTeam).cfp_rank.getD 0 ≤ 134) :=
  tiered_preseason_placement (fun _ l => l) (fun _ _ => List.Perm.refl _)
    ⟨1, 1, some 1, 0⟩ (by decide)

end CFP
